import Mathlib

/-!
# MultiIndex: a shallow embedding of `include/multiindex.h`

`MultiIndex<C>` owns a record store `m_cls : std::vector<C>` and a vector `m_idxs` of
indices.  Every index owns a container `data` of pairs `(key, position)`; the four
containers used are `std::map`, `std::multimap`, `std::unordered_map` and
`std::unordered_multimap`.

Modelling decisions.

* A container is the list of its pairs in iteration order.
* `size_t` positions are natural numbers.  The only arithmetic on them is the decrement
  `--it->second` in `remove`, which is guarded by `it->second > idx`, so it never wraps.
* Keys are values of a type `K` with a decidable linear order (`operator<` of the ordered
  containers, `operator==` of the hashed ones and of the scan loops).  A composite index is
  the instance where `K` is a tuple type and `filed` builds the tuple.
* The four inner index classes share one structure; the two flags `ordered` and `unique`
  say which container type `U` was chosen by `addIndex_*`.
* Undefined behaviour of the C++ program (reading through an invalidated iterator,
  erasing past the end of the vector) is the result `none`.
-/

namespace MultiIndex

variable {C K : Type}

/-! ## Indices -/

/-- An index object (`IndexSingleMap`, `IndexSingleHash` or `IndexComposite`).
`filed` is the key extractor `cl->*filed` (for a composite index: the tuple assembled by
`setTupleValue`), `fields` the identity of the member pointer(s) it was built from, and
`data` the container of `(key, position)` pairs in iteration order. -/
structure Index (C K : Type) where
  ordered : Bool
  unique : Bool
  composite : Bool
  fields : List Nat
  filed : C → K
  data : List (K × Nat)

/-- The loop of `IndexSingle::remove` / `IndexComposite::remove` over the container, from
the iterator position onwards: an entry below `idx` is skipped, an entry above `idx` is
decremented in place, an entry equal to `idx` is erased. -/
def removeLoop (idx : Nat) : List (K × Nat) → List (K × Nat)
  | [] => []
  | e :: rest =>
    if e.2 < idx then e :: removeLoop idx rest
    else if e.2 ≠ idx then (e.1, e.2 - 1) :: removeLoop idx rest
    else removeLoop idx rest

/-- The method `Index::remove(idx)`. -/
def Index.remove (ix : Index C K) (idx : Nat) : Index C K :=
  { ix with data := removeLoop idx ix.data }

/-- Renumbering of one stored position when position `p` is removed. -/
def shiftPos (p q : Nat) : Nat := if q < p then q else q - 1

/-- Insertion into `std::map` / `std::multimap` when the pair is inserted: the new pair goes
before the first entry with a greater key, that is at the upper end of the range of equal
keys (the place C++11 fixes for `multimap::insert`). -/
def orderedInsert [LinearOrder K] (k : K) (idx : Nat) : List (K × Nat) → List (K × Nat)
  | [] => [(k, idx)]
  | e :: rest =>
    if k < e.1 then (k, idx) :: e :: rest else e :: orderedInsert k idx rest

/-- Insertion into `std::unordered_map` / `std::unordered_multimap` when the pair is
inserted.  The language leaves the iteration order of a hashed container open, apart from
equal keys being adjacent; the model fixes one such order: the new pair goes right before
the first entry with an equal key, and at the end when the key is new. -/
def hashedInsert [DecidableEq K] (k : K) (idx : Nat) : List (K × Nat) → List (K × Nat)
  | [] => [(k, idx)]
  | e :: rest =>
    if e.1 = k then (k, idx) :: e :: rest else e :: hashedInsert k idx rest

/-- Whether the container holds an entry with key `k`. -/
def hasKey [DecidableEq K] (k : K) (data : List (K × Nat)) : Bool :=
  data.any (fun e => decide (e.1 = k))

/-- The call `data.insert(std::pair<T, size_t>(k, idx))` on the container type of the
index: a container with unique keys ignores the pair when the key is present. -/
def containerInsert [LinearOrder K] (ordered unique : Bool) (k : K) (idx : Nat)
    (data : List (K × Nat)) : List (K × Nat) :=
  if unique && hasKey k data then data
  else if ordered then orderedInsert k idx data
  else hashedInsert k idx data

/-- The method `Index::setValue(idx, cl)`. -/
def Index.setValue [LinearOrder K] (ix : Index C K) (idx : Nat) (cl : C) : Index C K :=
  { ix with data := containerInsert ix.ordered ix.unique (ix.filed cl) idx ix.data }

/-- The call `data.find(val)` as the suffix of the container starting at the iterator
returned: the first entry with an equal key, the empty suffix for `data.end()`.  In a
container with several entries of that key the model takes the first one in iteration
order, which is what the library implementations return and what the scan loop of the
sample program relies on. -/
def findFrom [DecidableEq K] (val : K) : List (K × Nat) → List (K × Nat)
  | [] => []
  | e :: rest => if e.1 = val then e :: rest else findFrom val rest

/-- Result of a lookup that returns a record pointer: null, a record, or the
`std::out_of_range` failure of `cls.at`. -/
inductive Lookup (C : Type) where
  | absent : Lookup C
  | found : C → Lookup C
  | outOfRange : Lookup C
  deriving DecidableEq, Repr

/-- The call `cls.at(pos)` on the store. -/
def storeAt (cls : List C) (pos : Nat) : Lookup C :=
  match cls[pos]? with
  | some r => Lookup.found r
  | none => Lookup.outOfRange

/-- The method `Index::findFirst(val)` of an index bound to the store `cls`. -/
def Index.findFirst [DecidableEq K] (ix : Index C K) (cls : List C) (val : K) : Lookup C :=
  match findFrom val ix.data with
  | [] => Lookup.absent
  | e :: _ => storeAt cls e.2

/-- The scan loop of the sample program,
`for (it = find(k); !it->is_end() && it->key() == k; it->next()) visit(it->idx(), it->value())`,
from the iterator position onwards.  Each visit yields the position and the lookup result
of `value()`. -/
def scanLoop [DecidableEq K] (cls : List C) (k : K) : List (K × Nat) → List (Nat × Lookup C)
  | [] => []
  | e :: rest => if e.1 = k then (e.2, storeAt cls e.2) :: scanLoop cls k rest else []

/-- The scan of all entries with key `k`, starting at `find(k)`. -/
def Index.scan [DecidableEq K] (ix : Index C K) (cls : List C) (k : K) :
    List (Nat × Lookup C) :=
  scanLoop cls k (findFrom k ix.data)

/-! ## Iterators -/

/-- An `IteratorForward` or `IteratorBackward` handed out by the index number `index` of
`m_idxs`.  `it` is the ordinal in `data` of the underlying container iterator
(`data.length` is `data.end()`).  A backward iterator is a `std::reverse_iterator`: its
underlying iterator is the base, and it reads the entry before the base. -/
structure Iterator where
  index : Nat
  backward : Bool
  it : Nat
  deriving DecidableEq, Repr

/-- The entry `*it` read by `key()`, `idx()` and `value()`; `none` when there is none
(a forward iterator at `end()`, a backward one whose base is `begin()`). -/
def Iterator.entry (i : Iterator) (data : List (K × Nat)) : Option (K × Nat) :=
  if i.backward then (if i.it = 0 then none else data[i.it - 1]?) else data[i.it]?

/-- The method `is_end()`: `it == data.end()`, for a backward iterator `it == data.rend()`. -/
def Iterator.is_end (i : Iterator) (data : List (K × Nat)) : Bool :=
  if i.backward then decide (i.it = 0) else decide (i.it = data.length)

/-- The method `idx()`, that is `it->second`. -/
def Iterator.idx (i : Iterator) (data : List (K × Nat)) : Option Nat :=
  (i.entry data).map Prod.snd

/-- The method `key()`, that is `it->first`. -/
def Iterator.key (i : Iterator) (data : List (K × Nat)) : Option K :=
  (i.entry data).map Prod.fst

/-- The method `Index::rbegin()` of the index number `j`: an ordered index returns a
backward iterator whose base is `data.end()`, a hashed one stops at `assert(false)`. -/
def Index.rbegin (ix : Index C K) (j : Nat) : Option Iterator :=
  if ix.ordered then some ⟨j, true, ix.data.length⟩ else none

/-- The method `Index::find(val)` of the index number `j`. -/
def Index.find [DecidableEq K] (ix : Index C K) (j : Nat) (val : K) : Iterator :=
  ⟨j, false, ix.data.length - (findFrom val ix.data).length⟩

/-- What the erasures of `Index::remove(idx)` do to a container iterator at ordinal `it` of
the same container (node-based containers): an iterator to an erased entry is invalidated
(`none`), every other iterator, `end()` included, keeps its entry and so moves down by the
number of entries erased before it. -/
def trackErase (idx : Nat) (data : List (K × Nat)) (it : Nat) : Option Nat :=
  match data[it]? with
  | some e =>
    if e.2 = idx then none
    else some (it - ((data.take it).filter (fun x => decide (x.2 = idx))).length)
  | none => some (it - ((data.take it).filter (fun x => decide (x.2 = idx))).length)

/-! ## The container -/

end MultiIndex

/-- The container `MultiIndex<C>`: the registered indices and the record store. -/
structure MultiIndex (C K : Type) where
  m_idxs : List (MultiIndex.Index C K)
  m_cls : List C

namespace MultiIndex

variable {C K : Type}

/-- The constructor `MultiIndex()`. -/
def empty : MultiIndex C K := ⟨[], []⟩

/-- The method `addData(cl)`: `setValue(m_cls.size(), &cl)` on every index, then
`m_cls.push_back`. -/
def addData [LinearOrder K] (m : MultiIndex C K) (cl : C) : MultiIndex C K :=
  { m_idxs := m.m_idxs.map (fun p => p.setValue m.m_cls.length cl)
    m_cls := m.m_cls ++ [cl] }

/-- The body shared by the six `addIndex_*` methods: construct the index object (its
constructor only stores the store reference and the member pointers, `data` starts
empty) and `m_idxs.push_back` it. -/
def addIndex (m : MultiIndex C K) (ordered unique composite : Bool) (fields : List Nat)
    (filed : C → K) : MultiIndex C K :=
  { m with m_idxs := m.m_idxs ++ [⟨ordered, unique, composite, fields, filed, []⟩] }

/-- The method `addIndex_Ordered_Unique(field)`: `IndexSingleMap` over `std::map`. -/
def addIndex_Ordered_Unique (m : MultiIndex C K) (field : Nat) (filed : C → K) :
    MultiIndex C K := m.addIndex true true false [field] filed

/-- The method `addIndex_Ordered_Unique(fields...)`: `IndexComposite` over `std::map`. -/
def addIndex_Ordered_Unique_Composite (m : MultiIndex C K) (fields : List Nat)
    (filed : C → K) : MultiIndex C K := m.addIndex true true true fields filed

/-- The method `addIndex_Ordered_NonUnique(field)`: `IndexSingleMap` over `std::multimap`. -/
def addIndex_Ordered_NonUnique (m : MultiIndex C K) (field : Nat) (filed : C → K) :
    MultiIndex C K := m.addIndex true false false [field] filed

/-- The method `addIndex_Ordered_NonUnique(fields...)`: `IndexComposite` over
`std::multimap`. -/
def addIndex_Ordered_NonUnique_Composite (m : MultiIndex C K) (fields : List Nat)
    (filed : C → K) : MultiIndex C K := m.addIndex true false true fields filed

/-- The method `addIndex_Hashed_Unique(field)`: `IndexSingleHash` over
`std::unordered_map`. -/
def addIndex_Hashed_Unique (m : MultiIndex C K) (field : Nat) (filed : C → K) :
    MultiIndex C K := m.addIndex false true false [field] filed

/-- The method `addIndex_Hashed_NonUnique(field)`: `IndexSingleHash` over
`std::unordered_multimap`. -/
def addIndex_Hashed_NonUnique (m : MultiIndex C K) (field : Nat) (filed : C → K) :
    MultiIndex C K := m.addIndex false false false [field] filed

/-- The method `reserve(size)`: capacity hints to the vector and to the hashed containers;
no record and no entry changes. -/
def reserve (m : MultiIndex C K) (_size : Nat) : MultiIndex C K := m

/-- The container of the index an iterator refers to, in the index vector `idxs`. -/
def iterData (idxs : List (Index C K)) (i : Iterator) : Option (List (K × Nat)) :=
  (idxs[i.index]?).map (fun ix => ix.data)

/-- The expression `i->idx()` evaluated against the index vector `idxs`; `none` when the
iterator was invalidated or has no entry to read. -/
def readIdx (idxs : List (Index C K)) (i : Option Iterator) : Option Nat :=
  match i with
  | none => none
  | some c => (iterData idxs c).bind (fun data => c.idx data)

/-- The loop `for (it = m_idxs.begin(); it != m_idxs.end(); ++it) (*it)->remove(i->idx())`
of `MultiIndex::remove`.  `pre` holds the indices already processed, the list argument the
ones still to process; `i->idx()` is evaluated afresh in every round, against the current
state of the container the iterator refers to.  The result is the new index vector and
the arguments that were passed to `Index::remove`, in call order. -/
def removeIdxs (pre : List (Index C K)) (i : Option Iterator) :
    List (Index C K) → Option (List (Index C K) × List Nat)
  | [] => some (pre, [])
  | ix :: todo =>
    match readIdx (pre ++ ix :: todo) i with
    | none => none
    | some p =>
      let i' := match i with
        | none => none
        | some c =>
          if c.index = pre.length then
            (trackErase p ix.data c.it).map (fun n => { c with it := n })
          else some c
      match removeIdxs (pre ++ [ix.remove p]) i' todo with
      | none => none
      | some (idxs, args) => some (idxs, p :: args)

/-- The method `remove(i)` together with the positions it used: the store slot erased
and the arguments passed to `Index::remove`.  `none` is undefined behaviour. -/
def removeTraced (m : MultiIndex C K) (i : Iterator) :
    Option (MultiIndex C K × Option Nat × List Nat) :=
  match iterData m.m_idxs i with
  | none => none
  | some data =>
    if i.is_end data then some (m, none, [])
    else
      match i.idx data with
      | none => none
      | some p =>
        if p < m.m_cls.length then
          match removeIdxs [] (some i) m.m_idxs with
          | none => none
          | some (idxs, args) => some (⟨idxs, m.m_cls.eraseIdx p⟩, some p, args)
        else none

/-- The method `remove(i)`. -/
def remove (m : MultiIndex C K) (i : Iterator) : Option (MultiIndex C K) :=
  (m.removeTraced i).map (fun r => r.1)

/-- An iterator that can be obtained from a registered index of the current state by
`begin()`, `rbegin()`, `find()` and `next()`: it refers to a registered index, stays
within its container, and is a backward one only for an ordered index. -/
def validIter (m : MultiIndex C K) (i : Iterator) : Bool :=
  match m.m_idxs[i.index]? with
  | none => false
  | some ix => decide (i.it ≤ ix.data.length) && (!i.backward || ix.ordered)

/-- The operations of the public interface. -/
inductive Op (C K : Type) where
  | addIndex (ordered unique composite : Bool) (fields : List Nat) (filed : C → K) : Op C K
  | addData (cl : C) : Op C K
  | reserve (size : Nat) : Op C K
  | remove (i : Iterator) : Op C K

/-- One call of the public interface; `none` is undefined behaviour. -/
def step [LinearOrder K] (m : MultiIndex C K) : Op C K → Option (MultiIndex C K)
  | Op.addIndex o u c fs f => some (m.addIndex o u c fs f)
  | Op.addData cl => some (m.addData cl)
  | Op.reserve n => some (m.reserve n)
  | Op.remove i => if m.validIter i then m.remove i else none

/-- A sequence of calls, starting from `m`. -/
def run [LinearOrder K] (m : MultiIndex C K) : List (Op C K) → Option (MultiIndex C K)
  | [] => some m
  | op :: ops =>
    match step m op with
    | none => none
    | some m' => run m' ops

end MultiIndex

namespace MultiIndex

variable {C K : Type}

/-! ## `getIndex` -/

/-- The method `contensField(T C::* _filed)`.  `IndexSingle` compares the member pointer it
was built from with the argument (`filed == _filed`); `IndexComposite` does not override
this overload and inherits `return false` from `Index`.  Member pointers are compared by
identity. -/
def Index.contensField (ix : Index C K) (_filed : Nat) : Bool :=
  if ix.composite then false else decide (ix.fields = [_filed])

/-- The method `contensField(void *_fileds)`.  `IndexSingle` inherits `return false` from
`Index`.  `IndexComposite` casts the pointer to a pointer to its own tuple type `F` and
compares `*tpFields == fields` component by component; the argument points to the tuple
built by the caller, so the read is meaningful only when that tuple has as many
components as `F`: with another arity the object read is not the object passed, which is
undefined behaviour (`none`). -/
def Index.contensFieldTuple (ix : Index C K) (_fileds : List Nat) : Option Bool :=
  if ix.composite then
    if _fileds.length = ix.fields.length then some (decide (_fileds = ix.fields)) else none
  else some false

/-- The loop of `getIndex(T C::*field)` from index number `i` on: the first index whose
`contensField(field)` holds is returned (as its number in `m_idxs`), null otherwise. -/
def getIndexLoop (field : Nat) : Nat → List (Index C K) → Option Nat
  | _, [] => none
  | i, ix :: rest =>
    if ix.contensField field then some i else getIndexLoop field (i + 1) rest

/-- The method `getIndex(T C::*field)`. -/
def getIndex (m : MultiIndex C K) (field : Nat) : Option Nat :=
  getIndexLoop field 0 m.m_idxs

/-- The loop of `getIndex(T C::*... fields)` from index number `i` on; the outer `none` is
undefined behaviour, `some none` the null result. -/
def getIndexTupleLoop (fields : List Nat) : Nat → List (Index C K) → Option (Option Nat)
  | _, [] => some none
  | i, ix :: rest =>
    match ix.contensFieldTuple fields with
    | none => none
    | some true => some (some i)
    | some false => getIndexTupleLoop fields (i + 1) rest

/-- The method `getIndex(T C::*... fields)` for a tuple of member pointers. -/
def getIndexTuple (m : MultiIndex C K) (fields : List Nat) : Option (Option Nat) :=
  getIndexTupleLoop fields 0 m.m_idxs

/-! ## `reserve` on an index and traversal -/

/-- The method `Index::reserve(size)`: `IndexSingleMap` and `IndexComposite` ignore the
argument, `IndexSingleHash` forwards it to the bucket reservation of its hashed container;
no entry is added, removed or changed. -/
def Index.reserve (ix : Index C K) (_size : Nat) : Index C K := ix

/-- The method `IndexComposite::setTupleValue(c, f, v, StaticCount<I>)`: it first assigns
the components below `I` (the call with `StaticCount<I - 1>`) and then the component `I`,
`std::get<I>(v) = c->*std::get<I>(f)`.  Tuples are lists of their components; the member
pointers in `f` are given as the extractors they stand for. -/
def setTupleValue {V : Type} (c : C) (f : List (C → V)) (v : List V) : Nat → List V
  | 0 =>
    match f[0]? with
    | some g => v.set 0 (g c)
    | none => v
  | I + 1 =>
    match f[I + 1]? with
    | some g => (setTupleValue c f v I).set (I + 1) (g c)
    | none => setTupleValue c f v I

/-- The key that `IndexComposite::setValue` hands to `data.insert`: the tuple `tpVal`
after `setTupleValue(cl, fields, tpVal, StaticCount<std::tuple_size<T>::value - 1>())`. -/
def compositeKey {V : Type} (f : List (C → V)) (tpVal : List V) (cl : C) : List V :=
  setTupleValue cl f tpVal (f.length - 1)

/-- An `IndexComposite` object over the extractors `f`, with `tpVal` the value of a
default-constructed key tuple. -/
def IndexComposite {V : Type} (ordered unique : Bool) (fields : List Nat)
    (f : List (C → V)) (tpVal : List V) (data : List (List V × Nat)) : Index C (List V) :=
  ⟨ordered, unique, true, fields, compositeKey f tpVal, data⟩

/-- The comparison `operator<` of `std::tuple`, which `std::map` and `std::multimap` use
to order tuple keys: the first components decide unless they are equivalent, in which
case the remaining components are compared; tuples without components are not less. -/
def tupleLt {V : Type} [LinearOrder V] : List V → List V → Bool
  | a :: u, b :: v => decide (a < b) || (!decide (b < a) && tupleLt u v)
  | _, _ => false

/-! ## Specification predicates -/

/-- Every entry of the container names a valid store slot whose record has the entry's
key. -/
def Sound (f : C → K) (cls : List C) (data : List (K × Nat)) : Prop :=
  ∀ e ∈ data, ∃ r, cls[e.2]? = some r ∧ f r = e.1

/-- Every record of the store has an entry mapping its key to its position. -/
def Complete (f : C → K) (cls : List C) (data : List (K × Nat)) : Prop :=
  ∀ q r, cls[q]? = some r → (f r, q) ∈ data

/-- No two entries of the container store the same position. -/
def NodupPos (data : List (K × Nat)) : Prop := (data.map Prod.snd).Nodup

/-- The entries with an equal key are adjacent: the run of equal keys that starts at
`find(k)` holds every entry with key `k`. -/
def Contig [DecidableEq K] (data : List (K × Nat)) : Prop :=
  ∀ k, (findFrom k data).takeWhile (fun e => decide (e.1 = k))
    = data.filter (fun e => decide (e.1 = k))

/-- The keys are in non-decreasing order. -/
def SortedKeys [LinearOrder K] (data : List (K × Nat)) : Prop :=
  data.Pairwise (fun a b => a.1 ≤ b.1)

/-- The order invariant of a container: sorted keys for an ordered container, adjacent
equal keys for a hashed one. -/
def OrderInv [LinearOrder K] (o : Bool) (data : List (K × Nat)) : Prop :=
  if o = true then SortedKeys data else Contig data

/-- Every record of the store is covered by an entry with its key at its own or an earlier
position. -/
def Covered (f : C → K) (cls : List C) (data : List (K × Nat)) : Prop :=
  ∀ q r, cls[q]? = some r → ∃ q0, q0 ≤ q ∧ (f r, q0) ∈ data

/-- Every entry names the earliest store position whose record has the entry's key. -/
def Earliest (f : C → K) (cls : List C) (data : List (K × Nat)) : Prop :=
  ∀ e ∈ data, ∀ q r, cls[q]? = some r → f r = e.1 → e.2 ≤ q

/-- Invariant of a non-unique index registered on the empty store, under `addData`. -/
def NonUniqueInv [LinearOrder K] (f : C → K) (o : Bool) (ix : Index C K) (cls : List C) :
    Prop :=
  ix.filed = f ∧ ix.ordered = o ∧ ix.unique = false ∧ Sound f cls ix.data
    ∧ Complete f cls ix.data ∧ NodupPos ix.data ∧ OrderInv o ix.data

/-- Invariant of a unique index registered on the empty store, under `addData`. -/
def UniqueInv (f : C → K) (ix : Index C K) (cls : List C) : Prop :=
  ix.filed = f ∧ ix.unique = true ∧ Sound f cls ix.data ∧ Covered f cls ix.data
    ∧ Earliest f cls ix.data

/-- Executable form of `Sound`. -/
def soundB [DecidableEq K] (f : C → K) (cls : List C) (data : List (K × Nat)) : Bool :=
  data.all (fun e => decide ((cls[e.2]?).map f = some e.1))

/-- Executable form of `Complete`. -/
def completeB [DecidableEq K] (f : C → K) (cls : List C) (data : List (K × Nat)) : Bool :=
  (List.range cls.length).all (fun q =>
    match cls[q]? with
    | some r => decide ((f r, q) ∈ data)
    | none => true)

/-- A store with one record and no index, on which an ordered unique index on the record
itself is registered afterwards. -/
def lateIndex : MultiIndex Nat Nat :=
  ((empty : MultiIndex Nat Nat).addData 7).addIndex_Ordered_Unique 0 id

/-- Two ordered non-unique indices, on field 0 and on field 1, registered on the empty
container. -/
def twoOrdered : MultiIndex (Nat × Nat) Nat :=
  ((empty : MultiIndex (Nat × Nat) Nat).addIndex_Ordered_NonUnique 0 Prod.fst).addIndex_Ordered_NonUnique
    1 Prod.snd

/-- The container `twoOrdered` after `addData` of three records. -/
def threeRecords : MultiIndex (Nat × Nat) Nat :=
  ((twoOrdered.addData (10, 3)).addData (20, 2)).addData (30, 1)

/-- The calls that build two ordered non-unique indices, insert two records and then
remove through `rbegin()` of the index registered first. -/
def rbeginRemoval : List (Op (Nat × Nat) Nat) :=
  [Op.addIndex true false false [0] Prod.fst, Op.addIndex true false false [1] Prod.snd,
   Op.addData (10, 1), Op.addData (20, 2), Op.remove ⟨0, true, 2⟩]

/-- The container reached by `dupKeyCalls`. -/
def dupKey : MultiIndex (Nat × Nat) Nat :=
  (((empty : MultiIndex (Nat × Nat) Nat).addIndex_Ordered_Unique 0 Prod.fst).addData
    (5, 1)).addData (5, 2)

/-- An ordered unique index on field 0 and a hashed non-unique index on field 1, as
constructed by `addIndex_*`. -/
def mixedIdxs : List (Index (Nat × Nat) Nat) :=
  [⟨true, true, false, [0], Prod.fst, []⟩, ⟨false, false, false, [1], Prod.snd, []⟩]

/-- Three records; the first two agree on field 0, the last two on field 1. -/
def mixedRecords : List (Nat × Nat) := [(5, 1), (5, 2), (6, 2)]

/-- An ordered non-unique index on field 0 holding the entries of three records. -/
def sampleIndex : Index (Nat × Nat) Nat :=
  ⟨true, false, false, [0], Prod.fst, [(10, 0), (20, 1), (20, 2)]⟩

/-- A store whose records match the entries of `sampleIndex`. -/
def sampleStore : List (Nat × Nat) := [(10, 3), (20, 2), (20, 1)]

/-- Records with three fields; a composite index on the fields 1 and 2 and a single-field
index on field 0, keys being tuples written as lists. -/
def arityMix : MultiIndex (Nat × Nat × Nat) (List Nat) :=
  ((empty : MultiIndex (Nat × Nat × Nat) (List Nat)).addIndex_Ordered_NonUnique_Composite
    [1, 2] (fun r => [r.2.1, r.2.2])).addIndex_Ordered_Unique 0 (fun r => [r.1])

/-- The calls that register an ordered and a hashed non-unique index on the empty
container, insert three records and then remove through the iterator reached from
`rbegin()` of the first index by one `next()`. -/
def nextRemoval : List (Op (Nat × Nat) Nat) :=
  [Op.addIndex true false false [0] Prod.fst, Op.addIndex false false false [1] Prod.snd,
   Op.addData (10, 3), Op.addData (20, 2), Op.addData (30, 1), Op.remove ⟨0, true, 2⟩]

/-- The container `twoOrdered` after `addData` of one record. -/
def oneRecord : MultiIndex (Nat × Nat) Nat := twoOrdered.addData (10, 1)

/-! ## Theorems -/

/-! ### `Index::remove` -/

theorem removeLoop_eq_filter_map (p : Nat) (data : List (K × Nat)) :
    removeLoop p data
      = (data.filter (fun e => decide (e.2 ≠ p))).map (fun e => (e.1, shiftPos p e.2)) := by
  induction data with
  | nil => rfl
  | cons e rest ih =>
    unfold removeLoop
    by_cases h1 : e.2 < p
    · have h2 : e.2 ≠ p := Nat.ne_of_lt h1
      simp [h1, h2, ih, shiftPos]
    · by_cases h2 : e.2 = p
      · simp [h2, ih]
      · simp [h1, h2, ih, shiftPos]

theorem mem_removeLoop {p : Nat} {data : List (K × Nat)} {e : K × Nat} :
    e ∈ removeLoop p data ↔ ∃ q, (e.1, q) ∈ data ∧ q ≠ p ∧ e.2 = shiftPos p q := by
  rw [removeLoop_eq_filter_map]
  simp only [List.mem_map, List.mem_filter, decide_eq_true_eq]
  constructor
  · rintro ⟨a, ⟨ha, hne⟩, rfl⟩
    exact ⟨a.2, ha, hne, rfl⟩
  · rintro ⟨q, hq, hne, he⟩
    refine ⟨(e.1, q), ⟨hq, hne⟩, ?_⟩
    cases e
    simp_all

theorem getElem?_eraseIdx_shiftPos (cls : List C) {p q : Nat} (hne : q ≠ p) :
    (cls.eraseIdx p)[shiftPos p q]? = cls[q]? := by
  rw [List.getElem?_eraseIdx]
  unfold shiftPos
  by_cases h : q < p
  · simp [h]
  · have h1 : ¬ (q - 1 < p) := by omega
    have h2 : q - 1 + 1 = q := by omega
    simp [h, h1, h2]

/-- C1. `Index::remove(p)` (the loop shared by the single-field and the composite index)
leaves exactly the old entries whose stored position differs from `p`, in the same
iteration order and with unchanged keys; a stored position below `p` is kept, one above
`p` is decremented by one; every entry whose stored position equals `p` is deleted.  The
rest of the index object is untouched. -/
theorem C1_index_remove_entries (ix : Index C K) (p : Nat) :
    (ix.remove p).data
        = (ix.data.filter (fun e => decide (e.2 ≠ p))).map
            (fun e => (e.1, if e.2 < p then e.2 else e.2 - 1))
      ∧ (ix.remove p).filed = ix.filed ∧ (ix.remove p).ordered = ix.ordered
      ∧ (ix.remove p).unique = ix.unique := by
  refine ⟨?_, rfl, rfl, rfl⟩
  show removeLoop p ix.data = _
  rw [removeLoop_eq_filter_map]
  rfl

/-! ### Container insertion -/

theorem orderedInsert_split [LinearOrder K] (k : K) (v : Nat) (l : List (K × Nat)) :
    ∃ l1 l2, l = l1 ++ l2 ∧ orderedInsert k v l = l1 ++ (k, v) :: l2
      ∧ (∀ e ∈ l1, e.1 ≤ k) ∧ (∀ e, l2.head? = some e → k < e.1) := by
  induction l with
  | nil => exact ⟨[], [], rfl, rfl, by simp, by simp⟩
  | cons e rest ih =>
    unfold orderedInsert
    by_cases h : k < e.1
    · exact ⟨[], e :: rest, rfl, by simp [h], by simp, by simpa using h⟩
    · obtain ⟨l1, l2, h1, h2, h3, h4⟩ := ih
      refine ⟨e :: l1, l2, by simp [h1], by simp [h, h2], ?_, h4⟩
      intro x hx
      rcases List.mem_cons.1 hx with rfl | hx
      · exact not_lt.1 h
      · exact h3 x hx

theorem hashedInsert_split [DecidableEq K] (k : K) (v : Nat) (l : List (K × Nat)) :
    ∃ l1 l2, l = l1 ++ l2 ∧ hashedInsert k v l = l1 ++ (k, v) :: l2
      ∧ (∀ e ∈ l1, e.1 ≠ k) := by
  induction l with
  | nil => exact ⟨[], [], rfl, rfl, by simp⟩
  | cons e rest ih =>
    unfold hashedInsert
    by_cases h : e.1 = k
    · exact ⟨[], e :: rest, rfl, by simp [h], by simp⟩
    · obtain ⟨l1, l2, h1, h2, h3⟩ := ih
      refine ⟨e :: l1, l2, by simp [h1], by simp [h, h2], ?_⟩
      intro x hx
      rcases List.mem_cons.1 hx with rfl | hx
      · exact h
      · exact h3 x hx

theorem hasKey_iff [DecidableEq K] {k : K} {data : List (K × Nat)} :
    hasKey k data = true ↔ ∃ e ∈ data, e.1 = k := by
  simp [hasKey]

/-- The two outcomes of `data.insert`: the pair is ignored (unique container, key
present) or it is inserted at one place and nothing else moves. -/
theorem containerInsert_cases [LinearOrder K] (o u : Bool) (k : K) (v : Nat)
    (data : List (K × Nat)) :
    (u = true ∧ hasKey k data = true ∧ containerInsert o u k v data = data)
    ∨ (¬ (u = true ∧ hasKey k data = true)
        ∧ ∃ l1 l2, data = l1 ++ l2 ∧ containerInsert o u k v data = l1 ++ (k, v) :: l2) := by
  unfold containerInsert
  by_cases h : u = true ∧ hasKey k data = true
  · left
    exact ⟨h.1, h.2, by simp [h.1, h.2]⟩
  · right
    refine ⟨h, ?_⟩
    have h' : (u && hasKey k data) = false := by
      cases hu : u <;> cases hk : hasKey k data <;> simp_all
    rw [h']
    cases o
    · obtain ⟨l1, l2, h1, h2, _⟩ := hashedInsert_split k v data
      exact ⟨l1, l2, h1, by simpa using h2⟩
    · obtain ⟨l1, l2, h1, h2, _⟩ := orderedInsert_split k v data
      exact ⟨l1, l2, h1, by simpa using h2⟩

theorem mem_containerInsert [LinearOrder K] {o u : Bool} {k : K} {v : Nat}
    {data : List (K × Nat)} {e : K × Nat} :
    e ∈ containerInsert o u k v data
      ↔ e ∈ data ∨ (e = (k, v) ∧ ¬ (u = true ∧ hasKey k data = true)) := by
  rcases containerInsert_cases o u k v data with ⟨h1, h2, h3⟩ | ⟨h1, l1, l2, h2, h3⟩
  · rw [h3]
    constructor
    · exact Or.inl
    · rintro (h | ⟨_, h⟩)
      · exact h
      · exact absurd ⟨h1, h2⟩ h
  · have hd : e ∈ data ↔ e ∈ l1 ∨ e ∈ l2 := by rw [h2]; exact List.mem_append
    rw [h3, hd]
    simp only [List.mem_append, List.mem_cons]
    constructor
    · rintro (h | h | h)
      · exact Or.inl (Or.inl h)
      · exact Or.inr ⟨h, h1⟩
      · exact Or.inl (Or.inr h)
    · rintro ((h | h) | ⟨h, _⟩)
      · exact Or.inl h
      · exact Or.inr (Or.inr h)
      · exact Or.inr (Or.inl h)

theorem length_containerInsert_le [LinearOrder K] (o u : Bool) (k : K) (v : Nat)
    (data : List (K × Nat)) :
    (containerInsert o u k v data).length ≤ data.length + 1 := by
  rcases containerInsert_cases o u k v data with ⟨_, _, h3⟩ | ⟨_, l1, l2, h2, h3⟩
  · rw [h3]; omega
  · rw [h3, h2]
    simp only [List.length_append, List.length_cons]
    omega

theorem sortedKeys_orderedInsert [LinearOrder K] (k : K) (v : Nat) (l : List (K × Nat))
    (h : SortedKeys l) : SortedKeys (orderedInsert k v l) := by
  unfold SortedKeys at *
  induction l with
  | nil => simp [orderedInsert]
  | cons e rest ih =>
    unfold orderedInsert
    rw [List.pairwise_cons] at h
    by_cases hk : k < e.1
    · simp only [hk, if_true]
      refine List.pairwise_cons.2 ⟨?_, List.pairwise_cons.2 h⟩
      intro x hx
      rcases List.mem_cons.1 hx with rfl | hx
      · exact le_of_lt hk
      · exact le_trans (le_of_lt hk) (h.1 x hx)
    · simp only [hk, if_false]
      refine List.pairwise_cons.2 ⟨?_, ih h.2⟩
      intro x hx
      obtain ⟨l1, l2, h1, h2, _⟩ := orderedInsert_split k v rest
      rw [h2] at hx
      rcases List.mem_append.1 hx with hx | hx
      · exact h.1 x (by rw [h1]; exact List.mem_append_left _ hx)
      · rcases List.mem_cons.1 hx with rfl | hx
        · exact not_lt.1 hk
        · exact h.1 x (by rw [h1]; exact List.mem_append_right _ hx)

theorem takeWhile_eq_filter_of_sorted [LinearOrder K] (k : K) (l : List (K × Nat))
    (h : SortedKeys l) (hge : ∀ e ∈ l, k ≤ e.1) :
    l.takeWhile (fun e => decide (e.1 = k)) = l.filter (fun e => decide (e.1 = k)) := by
  unfold SortedKeys at h
  induction l with
  | nil => rfl
  | cons e rest ih =>
    rw [List.pairwise_cons] at h
    by_cases hk : e.1 = k
    · simp only [List.takeWhile_cons, List.filter_cons, hk, decide_True, if_true]
      rw [ih h.2 (fun x hx => hge x (List.mem_cons_of_mem _ hx))]
    · have hlt : k < e.1 := lt_of_le_of_ne (hge e (List.mem_cons_self _ _)) (Ne.symm hk)
      simp only [List.takeWhile_cons, List.filter_cons, hk, decide_False]
      symm
      apply List.filter_eq_nil_iff.2
      intro x hx
      have := h.1 x hx
      simp only [decide_eq_true_eq]
      intro hxk
      rw [hxk] at this
      exact absurd hlt (not_lt.2 this)

theorem contig_of_sortedKeys [LinearOrder K] (l : List (K × Nat)) (h : SortedKeys l) :
    Contig l := by
  intro k
  induction l with
  | nil => rfl
  | cons e rest ih =>
    have h' := h
    unfold SortedKeys at h'
    rw [List.pairwise_cons] at h'
    unfold findFrom
    by_cases hk : e.1 = k
    · simp only [hk, if_true]
      apply takeWhile_eq_filter_of_sorted k (e :: rest) h
      intro x hx
      rcases List.mem_cons.1 hx with rfl | hx
      · exact le_of_eq hk.symm
      · rw [← hk]; exact h'.1 x hx
    · simp only [hk, if_false, List.filter_cons, decide_False]
      exact ih h'.2

theorem takeWhile_hashedInsert_ne [DecidableEq K] {k k' : K} (hne : k ≠ k') (v : Nat)
    (l : List (K × Nat)) :
    (hashedInsert k v l).takeWhile (fun e => decide (e.1 = k'))
      = l.takeWhile (fun e => decide (e.1 = k')) := by
  induction l with
  | nil => simp [hashedInsert, hne]
  | cons e rest ih =>
    unfold hashedInsert
    by_cases hk : e.1 = k
    · have : e.1 ≠ k' := by rw [hk]; exact hne
      simp [hk, hne, this]
    · by_cases hk' : e.1 = k'
      · rw [if_neg hk]
        simp only [List.takeWhile_cons, hk', decide_True, if_true, ih]
      · simp [hk, hk']

theorem findFrom_hashedInsert_ne [DecidableEq K] {k k' : K} (hne : k ≠ k') (v : Nat)
    (l : List (K × Nat)) :
    (findFrom k' (hashedInsert k v l)).takeWhile (fun e => decide (e.1 = k'))
      = (findFrom k' l).takeWhile (fun e => decide (e.1 = k')) := by
  induction l with
  | nil => simp [hashedInsert, findFrom, hne]
  | cons e rest ih =>
    unfold hashedInsert
    by_cases hk : e.1 = k
    · have h1 : e.1 ≠ k' := by rw [hk]; exact hne
      simp [hk, findFrom, hne, h1]
    · by_cases hk' : e.1 = k'
      · have := takeWhile_hashedInsert_ne hne v rest
        rw [if_neg hk]
        simp only [findFrom, hk', if_true, List.takeWhile_cons, decide_True, this]
      · simp only [hk, if_false, findFrom, hk']
        exact ih

theorem findFrom_hashedInsert_self [DecidableEq K] (k : K) (v : Nat) (l : List (K × Nat)) :
    findFrom k (hashedInsert k v l) = (k, v) :: findFrom k l := by
  induction l with
  | nil => simp [hashedInsert, findFrom]
  | cons e rest ih =>
    unfold hashedInsert
    by_cases hk : e.1 = k
    · simp [hk, findFrom]
    · simp [hk, findFrom, ih]

theorem filter_hashedInsert_self [DecidableEq K] (k : K) (v : Nat) (l : List (K × Nat)) :
    (hashedInsert k v l).filter (fun e => decide (e.1 = k))
      = (k, v) :: l.filter (fun e => decide (e.1 = k)) := by
  induction l with
  | nil => simp [hashedInsert]
  | cons e rest ih =>
    unfold hashedInsert
    by_cases hk : e.1 = k
    · simp [hk]
    · simp [hk, ih]

theorem filter_hashedInsert_ne [DecidableEq K] {k k' : K} (hne : k ≠ k') (v : Nat)
    (l : List (K × Nat)) :
    (hashedInsert k v l).filter (fun e => decide (e.1 = k'))
      = l.filter (fun e => decide (e.1 = k')) := by
  obtain ⟨l1, l2, h1, h2, _⟩ := hashedInsert_split k v l
  rw [h2, h1]
  simp [hne]

theorem contig_hashedInsert [DecidableEq K] (k : K) (v : Nat) (l : List (K × Nat))
    (h : Contig l) : Contig (hashedInsert k v l) := by
  intro k'
  by_cases hne : k = k'
  · subst hne
    rw [findFrom_hashedInsert_self, filter_hashedInsert_self]
    simp only [List.takeWhile_cons, decide_True, if_true]
    rw [h k]
  · rw [findFrom_hashedInsert_ne hne, filter_hashedInsert_ne hne]
    exact h k'

/-! ### `setValue` and `addData` -/

theorem sound_lt {f : C → K} {cls : List C} {data : List (K × Nat)} (h : Sound f cls data)
    {e : K × Nat} (he : e ∈ data) : e.2 < cls.length := by
  obtain ⟨r, hr, _⟩ := h e he
  exact (List.getElem?_eq_some.1 hr).1

theorem sound_setValue [LinearOrder K] {f : C → K} {cls : List C} {data : List (K × Nat)}
    (o u : Bool) (r : C) (h : Sound f cls data) :
    Sound f (cls ++ [r]) (containerInsert o u (f r) cls.length data) := by
  intro e he
  rcases mem_containerInsert.1 he with he | ⟨rfl, _⟩
  · obtain ⟨r0, hr0, hf⟩ := h e he
    refine ⟨r0, ?_, hf⟩
    rw [List.getElem?_append_left (List.getElem?_eq_some.1 hr0).1]
    exact hr0
  · exact ⟨r, by simp, rfl⟩

theorem complete_setValue [LinearOrder K] {f : C → K} {cls : List C}
    {data : List (K × Nat)} (o : Bool) (r : C) (h : Complete f cls data) :
    Complete f (cls ++ [r]) (containerInsert o false (f r) cls.length data) := by
  intro q r0 hq
  apply mem_containerInsert.2
  by_cases hlt : q < cls.length
  · rw [List.getElem?_append_left hlt] at hq
    exact Or.inl (h q r0 hq)
  · have hq' := hq
    have hlen := (List.getElem?_eq_some.1 hq).1
    simp only [List.length_append, List.length_singleton] at hlen
    have hqe : q = cls.length := by omega
    subst hqe
    simp at hq'
    subst hq'
    exact Or.inr ⟨rfl, by simp⟩

theorem nodupPos_setValue [LinearOrder K] {f : C → K} {cls : List C}
    {data : List (K × Nat)} (o u : Bool) (k : K) (hs : Sound f cls data)
    (h : NodupPos data) : NodupPos (containerInsert o u k cls.length data) := by
  unfold NodupPos at *
  rcases containerInsert_cases o u k cls.length data with ⟨_, _, h3⟩ | ⟨_, l1, l2, h2, h3⟩
  · rw [h3]; exact h
  · rw [h3]
    have hperm : (l1 ++ (k, cls.length) :: l2).Perm ((k, cls.length) :: data) := by
      rw [h2]; exact List.perm_middle
    refine ((hperm.map Prod.snd).nodup_iff).2 ?_
    simp only [List.map_cons]
    refine List.nodup_cons.2 ⟨?_, h⟩
    intro hmem
    obtain ⟨e, he, heq⟩ := List.mem_map.1 hmem
    have := sound_lt hs he
    omega

theorem orderInv_nil [LinearOrder K] (o : Bool) : OrderInv o ([] : List (K × Nat)) := by
  unfold OrderInv
  split
  · exact List.Pairwise.nil
  · intro k; rfl

theorem orderInv_contig [LinearOrder K] {o : Bool} {data : List (K × Nat)}
    (h : OrderInv o data) : Contig data := by
  unfold OrderInv at h
  split at h
  · exact contig_of_sortedKeys data h
  · exact h

theorem orderInv_setValue [LinearOrder K] (o u : Bool) (k : K) (v : Nat)
    {data : List (K × Nat)} (h : OrderInv o data) :
    OrderInv o (containerInsert o u k v data) := by
  unfold containerInsert
  by_cases hu : (u && hasKey k data) = true
  · rw [if_pos hu]; exact h
  · rw [if_neg hu]
    unfold OrderInv at *
    cases o
    · simp only [Bool.false_eq_true, if_false] at h ⊢
      exact contig_hashedInsert k v data h
    · simp only [if_true] at h ⊢
      exact sortedKeys_orderedInsert k v data h

theorem addData_cls [LinearOrder K] (m : MultiIndex C K) (r : C) :
    (m.addData r).m_cls = m.m_cls ++ [r] := rfl

theorem foldl_addData_cls [LinearOrder K] (rs : List C) (m : MultiIndex C K) :
    (rs.foldl addData m).m_cls = m.m_cls ++ rs := by
  induction rs generalizing m with
  | nil => simp
  | cons r rs ih => simp [List.foldl_cons, ih, addData_cls]

theorem addData_idxs_getElem? [LinearOrder K] (m : MultiIndex C K) (r : C) (j : Nat) :
    (m.addData r).m_idxs[j]? = (m.m_idxs[j]?).map (fun p => p.setValue m.m_cls.length r) := by
  simp [addData]

theorem foldl_addData_idxs_length [LinearOrder K] (rs : List C) (m : MultiIndex C K) :
    (rs.foldl addData m).m_idxs.length = m.m_idxs.length := by
  induction rs generalizing m with
  | nil => rfl
  | cons r rs ih => simp [List.foldl_cons, ih, addData]

/-- Induction principle for a sequence of `addData` calls, seen from one index: a property
of (index, store) that every `setValue`-then-`push_back` round keeps holds at the end. -/
theorem foldl_addData_inv [LinearOrder K] (P : Index C K → List C → Prop)
    (hstep : ∀ ix cls r, P ix cls → P (ix.setValue cls.length r) (cls ++ [r]))
    (rs : List C) (m : MultiIndex C K) (j : Nat) (ix : Index C K)
    (hj : m.m_idxs[j]? = some ix) (h0 : P ix m.m_cls) :
    ∃ ix', (rs.foldl addData m).m_idxs[j]? = some ix' ∧ P ix' (rs.foldl addData m).m_cls := by
  induction rs generalizing m ix with
  | nil => exact ⟨ix, hj, h0⟩
  | cons r rs ih =>
    rw [List.foldl_cons]
    apply ih (m.addData r) (ix.setValue m.m_cls.length r)
    · rw [addData_idxs_getElem?, hj]; rfl
    · exact hstep ix m.m_cls r h0

/-- C9. `addData(r)` on a store of size `n` appends `r` at position `n` and leaves the
earlier records alone; it keeps the number and kind of the indices; a non-unique index,
and a unique index without an entry of key `key(r)`, gains exactly the entry
`(key(r), n)` (the old entries stay, in their order); a unique index that has an entry with
that key is left unchanged, while the record is appended all the same. -/
theorem C9_addData_effect [LinearOrder K] (m : MultiIndex C K) (r : C) :
    (m.addData r).m_cls = m.m_cls ++ [r]
    ∧ (m.addData r).m_idxs.length = m.m_idxs.length
    ∧ ∀ (j : Nat) (ix : Index C K), m.m_idxs[j]? = some ix →
        ∃ ix' : Index C K, (m.addData r).m_idxs[j]? = some ix'
          ∧ ix'.filed = ix.filed ∧ ix'.ordered = ix.ordered ∧ ix'.unique = ix.unique
          ∧ ((ix.unique = true ∧ ∃ e ∈ ix.data, e.1 = ix.filed r) → ix'.data = ix.data)
          ∧ (¬ (ix.unique = true ∧ ∃ e ∈ ix.data, e.1 = ix.filed r) →
              ∃ l1 l2, ix.data = l1 ++ l2
                ∧ ix'.data = l1 ++ (ix.filed r, m.m_cls.length) :: l2) := by
  refine ⟨rfl, by simp [addData], ?_⟩
  intro j ix hj
  refine ⟨ix.setValue m.m_cls.length r, ?_, rfl, rfl, rfl, ?_, ?_⟩
  · rw [addData_idxs_getElem?, hj]; rfl
  · rintro ⟨hu, hk⟩
    show containerInsert ix.ordered ix.unique (ix.filed r) m.m_cls.length ix.data = ix.data
    rcases containerInsert_cases ix.ordered ix.unique (ix.filed r) m.m_cls.length ix.data
      with ⟨_, _, h3⟩ | ⟨h1, _⟩
    · exact h3
    · exact absurd ⟨hu, hasKey_iff.2 hk⟩ h1
  · intro hn
    show ∃ l1 l2, ix.data = l1 ++ l2
      ∧ containerInsert ix.ordered ix.unique (ix.filed r) m.m_cls.length ix.data
        = l1 ++ (ix.filed r, m.m_cls.length) :: l2
    rcases containerInsert_cases ix.ordered ix.unique (ix.filed r) m.m_cls.length ix.data
      with ⟨h1, h2, _⟩ | ⟨_, l1, l2, h2, h3⟩
    · exact absurd ⟨h1, hasKey_iff.1 h2⟩ hn
    · exact ⟨l1, l2, h2, h3⟩

/-! ### `addIndex_*` -/

/-- C8, as stated, fails: an ordered unique index registered on a store that already
holds the record `7` has no entry at all, and `findFirst(7)` on it is absent. -/
theorem C8_no_backfill_counterexample :
    lateIndex.m_cls = [7]
    ∧ lateIndex.m_idxs.map (fun ix => ix.data) = [[]]
    ∧ lateIndex.m_idxs.map (fun ix => ix.findFirst lateIndex.m_cls 7) = [Lookup.absent] := by
  decide

/-- C8, amended. Every `addIndex_*` call leaves the store and the registered indices as
they are and appends one index whose container is empty, whatever the store holds: on it
`findFirst(k)` is absent, `find(k)` is at the end and the scan visits nothing, for every
key; the index gets its first entry from the next `addData`. -/
theorem C8_addIndex_registers_empty [LinearOrder K] (m : MultiIndex C K)
    (o u c : Bool) (fs : List Nat) (f : C → K) :
    (m.addIndex o u c fs f).m_cls = m.m_cls
    ∧ ∃ ix, (m.addIndex o u c fs f).m_idxs = m.m_idxs ++ [ix]
        ∧ ix.ordered = o ∧ ix.unique = u ∧ ix.filed = f ∧ ix.data = []
        ∧ (∀ k, ix.findFirst m.m_cls k = Lookup.absent
            ∧ (ix.find m.m_idxs.length k).is_end ix.data = true
            ∧ ix.scan m.m_cls k = [])
        ∧ ∀ r, ((m.addIndex o u c fs f).addData r).m_idxs[m.m_idxs.length]?
            = some { ix with data := [(f r, m.m_cls.length)] } := by
  refine ⟨rfl, ⟨o, u, c, fs, f, []⟩, rfl, rfl, rfl, rfl, rfl, ?_, ?_⟩
  · intro k
    exact ⟨rfl, rfl, rfl⟩
  · intro r
    rw [addData_idxs_getElem?]
    simp only [addIndex, List.getElem?_concat_length, Option.map_some']
    congr 1
    simp only [Index.setValue, containerInsert, hasKey, List.any_nil, Bool.and_false,
      Bool.false_eq_true, if_false]
    cases o <;> simp [orderedInsert, hashedInsert]

/-! ### Lookups and scans -/

theorem scanLoop_eq [DecidableEq K] (cls : List C) (k : K) (l : List (K × Nat)) :
    scanLoop cls k l
      = (l.takeWhile (fun e => decide (e.1 = k))).map (fun e => (e.2, storeAt cls e.2)) := by
  induction l with
  | nil => rfl
  | cons e rest ih =>
    unfold scanLoop
    by_cases h : e.1 = k
    · simp [h, ih]
    · simp [h]

theorem findFrom_cons [DecidableEq K] {k : K} {data : List (K × Nat)} {e : K × Nat}
    {t : List (K × Nat)} (h : findFrom k data = e :: t) : e ∈ data ∧ e.1 = k := by
  induction data with
  | nil => simp [findFrom] at h
  | cons x rest ih =>
    unfold findFrom at h
    by_cases hx : x.1 = k
    · rw [if_pos hx] at h
      injection h with h1 h2
      subst h1
      exact ⟨List.mem_cons_self _ _, hx⟩
    · rw [if_neg hx] at h
      exact ⟨List.mem_cons_of_mem _ (ih h).1, (ih h).2⟩

theorem findFrom_eq_nil [DecidableEq K] {k : K} {data : List (K × Nat)}
    (h : findFrom k data = []) : ∀ e ∈ data, e.1 ≠ k := by
  induction data with
  | nil => simp
  | cons x rest ih =>
    unfold findFrom at h
    by_cases hx : x.1 = k
    · rw [if_pos hx] at h
      exact absurd h (List.cons_ne_nil _ _)
    · rw [if_neg hx] at h
      intro e he
      rcases List.mem_cons.1 he with rfl | he
      · exact hx
      · exact ih h e he

theorem findFrom_exists [DecidableEq K] {k : K} {data : List (K × Nat)}
    (h : ∃ e ∈ data, e.1 = k) : ∃ e t, findFrom k data = e :: t := by
  cases hf : findFrom k data with
  | nil =>
    obtain ⟨e, he, hk⟩ := h
    exact absurd hk (findFrom_eq_nil hf e he)
  | cons e t => exact ⟨e, t, rfl⟩

theorem storeAt_of_getElem? {cls : List C} {q : Nat} {r : C} (h : cls[q]? = some r) :
    storeAt cls q = Lookup.found r := by
  simp [storeAt, h]

/-- The positions visited by the scan of a container with adjacent equal keys are those of
all entries with the key, in container order. -/
theorem scan_positions [DecidableEq K] (ix : Index C K) (cls : List C) (k : K)
    (h : Contig ix.data) :
    ix.scan cls k
      = (ix.data.filter (fun e => decide (e.1 = k))).map (fun e => (e.2, storeAt cls e.2)) := by
  unfold Index.scan
  rw [scanLoop_eq, h k]

theorem nonUniqueInv_step [LinearOrder K] (f : C → K) (o : Bool) (ix : Index C K)
    (cls : List C) (r : C) (h : NonUniqueInv f o ix cls) :
    NonUniqueInv f o (ix.setValue cls.length r) (cls ++ [r]) := by
  obtain ⟨hf, ho, hu, hs, hc, hn, hord⟩ := h
  refine ⟨hf, ho, hu, ?_, ?_, ?_, ?_⟩
  · show Sound f (cls ++ [r]) (containerInsert ix.ordered ix.unique (ix.filed r) cls.length _)
    rw [hf]; exact sound_setValue _ _ r hs
  · show Complete f (cls ++ [r])
      (containerInsert ix.ordered ix.unique (ix.filed r) cls.length _)
    rw [hf, hu]; exact complete_setValue _ r hc
  · exact nodupPos_setValue _ _ _ hs hn
  · show OrderInv o (containerInsert ix.ordered ix.unique (ix.filed r) cls.length _)
    rw [ho]; exact orderInv_setValue _ _ _ _ hord

theorem nonUniqueInv_init [LinearOrder K] (f : C → K) (o c : Bool) (fs : List Nat) :
    NonUniqueInv f o (⟨o, false, c, fs, f, []⟩ : Index C K) [] := by
  refine ⟨rfl, rfl, rfl, ?_, ?_, ?_, orderInv_nil o⟩
  · intro e he; simp at he
  · intro q r hq; simp at hq
  · exact List.nodup_nil

/-- C5. A non-unique index (ordered or hashed, single-field or composite) registered on
the empty store, then any sequence `rs` of `addData` calls: for every key `k` the scan
from `find(k)` while the key matches visits exactly the store positions whose record has
key `k`, each once, and `value()` yields that record at every visit. -/
theorem C5_nonunique_scan_complete [LinearOrder K] (idxs0 : List (Index C K)) (o c : Bool)
    (fs : List Nat) (f : C → K) (rs : List C) (k : K) :
    (rs.foldl addData ((⟨idxs0, []⟩ : MultiIndex C K).addIndex o false c fs f)).m_cls = rs
    ∧ ∃ ix : Index C K,
        (rs.foldl addData
          ((⟨idxs0, []⟩ : MultiIndex C K).addIndex o false c fs f)).m_idxs[idxs0.length]?
          = some ix
        ∧ ix.filed = f ∧ ix.ordered = o ∧ ix.unique = false
        ∧ ((ix.scan rs k).map Prod.fst).Perm
            ((List.range rs.length).filter (fun q => decide ((rs[q]?).map f = some k)))
        ∧ ∀ v ∈ ix.scan rs k, ∃ r, rs[v.1]? = some r ∧ v.2 = Lookup.found r ∧ f r = k := by
  have hcls : (rs.foldl addData
      ((⟨idxs0, []⟩ : MultiIndex C K).addIndex o false c fs f)).m_cls = rs := by
    rw [foldl_addData_cls]; rfl
  refine ⟨hcls, ?_⟩
  obtain ⟨ix, hix, hinv⟩ := foldl_addData_inv (NonUniqueInv f o) (nonUniqueInv_step f o) rs
    ((⟨idxs0, []⟩ : MultiIndex C K).addIndex o false c fs f) idxs0.length
    ⟨o, false, c, fs, f, []⟩ (by simp [addIndex]) (nonUniqueInv_init f o c fs)
  rw [hcls] at hinv
  obtain ⟨hf, ho, hu, hs, hc, hn, hord⟩ := hinv
  refine ⟨ix, hix, hf, ho, hu, ?_, ?_⟩
  · rw [scan_positions ix rs k (orderInv_contig hord)]
    rw [List.map_map]
    have hfun : (Prod.fst ∘ fun e : K × Nat => (e.2, storeAt rs e.2)) = Prod.snd := by
      funext e; rfl
    rw [hfun]
    apply (List.perm_ext_iff_of_nodup ?_ ?_).2
    · intro q
      simp only [List.mem_map, List.mem_filter, decide_eq_true_eq, List.mem_range]
      constructor
      · rintro ⟨e, ⟨he, hk⟩, rfl⟩
        obtain ⟨r, hr, hfr⟩ := hs e he
        refine ⟨(List.getElem?_eq_some.1 hr).1, ?_⟩
        rw [hr]; simp [hfr, hk]
      · rintro ⟨_, hq⟩
        cases hr : rs[q]? with
        | none => rw [hr] at hq; simp at hq
        | some r =>
          rw [hr] at hq
          simp only [Option.map_some', Option.some.injEq] at hq
          exact ⟨(f r, q), ⟨hc q r hr, hq⟩, rfl⟩
    · exact List.Nodup.sublist (List.Sublist.map _ (List.filter_sublist _)) hn
    · exact List.Nodup.filter _ (List.nodup_range _)
  · intro v hv
    rw [scan_positions ix rs k (orderInv_contig hord)] at hv
    obtain ⟨e, he, rfl⟩ := List.mem_map.1 hv
    simp only [List.mem_filter, decide_eq_true_eq] at he
    obtain ⟨r, hr, hfr⟩ := hs e he.1
    exact ⟨r, hr, storeAt_of_getElem? hr, by rw [hfr, he.2]⟩

theorem uniqueInv_step [LinearOrder K] (f : C → K) (ix : Index C K)
    (cls : List C) (r : C) (h : UniqueInv f ix cls) :
    UniqueInv f (ix.setValue cls.length r) (cls ++ [r]) := by
  obtain ⟨hf, hu, hs, hc, he⟩ := h
  have hget : ∀ q r0, (cls ++ [r])[q]? = some r0 →
      (q < cls.length ∧ cls[q]? = some r0) ∨ (q = cls.length ∧ r0 = r) := by
    intro q r0 hq
    by_cases hlt : q < cls.length
    · rw [List.getElem?_append_left hlt] at hq
      exact Or.inl ⟨hlt, hq⟩
    · have hlen := (List.getElem?_eq_some.1 hq).1
      simp only [List.length_append, List.length_singleton] at hlen
      have hqe : q = cls.length := by omega
      subst hqe
      simp at hq
      exact Or.inr ⟨rfl, hq.symm⟩
  refine ⟨hf, hu, ?_, ?_, ?_⟩
  · show Sound f (cls ++ [r]) (containerInsert ix.ordered ix.unique (ix.filed r) cls.length _)
    rw [hf]; exact sound_setValue _ _ r hs
  · intro q r0 hq
    show ∃ q0, q0 ≤ q ∧ (f r0, q0) ∈
      containerInsert ix.ordered ix.unique (ix.filed r) cls.length ix.data
    rcases hget q r0 hq with ⟨_, hq'⟩ | ⟨rfl, rfl⟩
    · obtain ⟨q0, hle, hmem⟩ := hc q r0 hq'
      exact ⟨q0, hle, mem_containerInsert.2 (Or.inl hmem)⟩
    · by_cases hk : hasKey (ix.filed r0) ix.data = true
      · obtain ⟨e, hemem, hek⟩ := hasKey_iff.1 hk
        refine ⟨e.2, Nat.le_of_lt (sound_lt hs hemem), mem_containerInsert.2 (Or.inl ?_)⟩
        rw [← hf, ← hek]
        exact hemem
      · refine ⟨cls.length, Nat.le_refl _, mem_containerInsert.2 (Or.inr ⟨?_, ?_⟩)⟩
        · rw [hf]
        · exact fun h => hk h.2
  · intro e hemem q r0 hq hk
    rcases mem_containerInsert.1 hemem with hold | ⟨rfl, hnk⟩
    · rcases hget q r0 hq with ⟨_, hq'⟩ | ⟨rfl, _⟩
      · exact he e hold q r0 hq' hk
      · exact Nat.le_of_lt (sound_lt hs hold)
    · rcases hget q r0 hq with ⟨_, hq'⟩ | ⟨rfl, _⟩
      · exfalso
        obtain ⟨q0, _, hmem⟩ := hc q r0 hq'
        apply hnk
        refine ⟨hu, hasKey_iff.2 ⟨(f r0, q0), hmem, ?_⟩⟩
        simpa using hk
      · exact Nat.le_refl _

theorem uniqueInv_init (f : C → K) (o c : Bool) (fs : List Nat) :
    UniqueInv f (⟨o, true, c, fs, f, []⟩ : Index C K) [] := by
  refine ⟨rfl, rfl, ?_, ?_, ?_⟩
  · intro e he; simp at he
  · intro q r hq; simp at hq
  · intro e he; simp at he

/-- C6. A unique index (ordered or hashed) registered on the empty store, then any
sequence `rs` of `addData` calls: for every record `r` of the store `findFirst(key(r))`
returns a record, that record has the key of `r`, and it is the record at the earliest
store position with that key (first writer wins). -/
theorem C6_unique_findFirst_first_writer [LinearOrder K] (idxs0 : List (Index C K))
    (o c : Bool) (fs : List Nat) (f : C → K) (rs : List C) :
    (rs.foldl addData ((⟨idxs0, []⟩ : MultiIndex C K).addIndex o true c fs f)).m_cls = rs
    ∧ ∃ ix : Index C K,
        (rs.foldl addData
          ((⟨idxs0, []⟩ : MultiIndex C K).addIndex o true c fs f)).m_idxs[idxs0.length]?
          = some ix
        ∧ ix.filed = f ∧ ix.ordered = o ∧ ix.unique = true
        ∧ ∀ (q : Nat) (r : C), rs[q]? = some r →
            ∃ (q0 : Nat) (r0 : C), ix.findFirst rs (f r) = Lookup.found r0
              ∧ rs[q0]? = some r0 ∧ f r0 = f r
              ∧ ∀ (q1 : Nat) (r1 : C), rs[q1]? = some r1 → f r1 = f r → q0 ≤ q1 := by
  have hcls : (rs.foldl addData
      ((⟨idxs0, []⟩ : MultiIndex C K).addIndex o true c fs f)).m_cls = rs := by
    rw [foldl_addData_cls]; rfl
  refine ⟨hcls, ?_⟩
  obtain ⟨ix, hix, hinv, hord⟩ := foldl_addData_inv
    (fun ix cls => UniqueInv f ix cls ∧ ix.ordered = o)
    (fun ix cls r h => ⟨uniqueInv_step f ix cls r h.1, h.2⟩) rs
    ((⟨idxs0, []⟩ : MultiIndex C K).addIndex o true c fs f) idxs0.length
    ⟨o, true, c, fs, f, []⟩ (by simp [addIndex]) ⟨uniqueInv_init f o c fs, rfl⟩
  rw [hcls] at hinv
  obtain ⟨hf, hu, hs, hc, he⟩ := hinv
  refine ⟨ix, hix, hf, hord, hu, ?_⟩
  intro q r hq
  obtain ⟨q0, _, hmem⟩ := hc q r hq
  obtain ⟨e, t, hfind⟩ := findFrom_exists (k := f r) ⟨(f r, q0), hmem, rfl⟩
  obtain ⟨hemem, hek⟩ := findFrom_cons hfind
  obtain ⟨r0, hr0, hfr0⟩ := hs e hemem
  refine ⟨e.2, r0, ?_, hr0, by rw [hfr0, hek], ?_⟩
  · unfold Index.findFirst
    rw [hfind]
    exact storeAt_of_getElem? hr0
  · intro q1 r1 hq1 hk1
    exact he e hemem q1 r1 hq1 (by rw [hk1, hek])

/-! ### `Index::remove` against the store -/

theorem sound_remove {f : C → K} {cls : List C} {data : List (K × Nat)} (p : Nat)
    (h : Sound f cls data) : Sound f (cls.eraseIdx p) (removeLoop p data) := by
  intro e he
  obtain ⟨q, hq, hne, hs⟩ := mem_removeLoop.1 he
  obtain ⟨r, hr, hf⟩ := h (e.1, q) hq
  refine ⟨r, ?_, hf⟩
  rw [hs, getElem?_eraseIdx_shiftPos cls hne]
  exact hr

theorem complete_remove {f : C → K} {cls : List C} {data : List (K × Nat)} (p : Nat)
    (h : Complete f cls data) : Complete f (cls.eraseIdx p) (removeLoop p data) := by
  intro q r hq
  rw [List.getElem?_eraseIdx] at hq
  apply mem_removeLoop.2
  by_cases hlt : q < p
  · rw [if_pos hlt] at hq
    refine ⟨q, h q r hq, Nat.ne_of_lt hlt, ?_⟩
    simp [shiftPos, hlt]
  · rw [if_neg hlt] at hq
    refine ⟨q + 1, h (q + 1) r hq, by omega, ?_⟩
    have : ¬ (q + 1 < p) := by omega
    simp [shiftPos, this]

theorem entry_mem {i : Iterator} {data : List (K × Nat)} {e : K × Nat}
    (h : i.entry data = some e) : e ∈ data := by
  unfold Iterator.entry at h
  split at h
  · split at h
    · exact absurd h (by simp)
    · exact List.getElem?_mem h
  · exact List.getElem?_mem h

theorem readIdx_append_right {pre : List (Index C K)} {x y : Index C K}
    {todo : List (Index C K)} {c : Iterator} (h : pre.length < c.index) :
    readIdx ((pre ++ [x]) ++ todo) (some c) = readIdx (pre ++ y :: todo) (some c) := by
  simp only [readIdx, iterData]
  have h1 : ((pre ++ [x]) ++ todo)[c.index]? = todo[c.index - (pre.length + 1)]? := by
    rw [List.getElem?_append_right (by simp; omega)]
    simp
  have h2 : (pre ++ y :: todo)[c.index]? = todo[c.index - (pre.length + 1)]? := by
    rw [List.getElem?_append_right (by omega)]
    have : c.index - pre.length = (c.index - (pre.length + 1)) + 1 := by omega
    rw [this, List.getElem?_cons_succ]
  rw [h1, h2]

/-- When the iterator belongs to the index registered last, every round of the loop reads
the position the iterator held at the call. -/
theorem removeIdxs_last (c : Iterator) (p : Nat) (todo : List (Index C K)) :
    ∀ (pre : List (Index C K)),
      pre.length + todo.length = c.index + 1 →
      readIdx (pre ++ todo) (some c) = some p →
      removeIdxs pre (some c) todo
        = some (pre ++ todo.map (fun ix => ix.remove p), todo.map (fun _ => p)) := by
  induction todo with
  | nil => intro pre _ _; simp [removeIdxs]
  | cons ix todo ih =>
    intro pre hlen hread
    unfold removeIdxs
    rw [hread]
    simp only
    cases todo with
    | nil =>
      simp [removeIdxs]
    | cons y rest =>
      have hne : c.index ≠ pre.length := by
        simp only [List.length_cons] at hlen; omega
      rw [if_neg hne]
      have hgt : pre.length < c.index := by
        simp only [List.length_cons] at hlen; omega
      have hread' : readIdx ((pre ++ [ix.remove p]) ++ y :: rest) (some c) = some p := by
        rw [readIdx_append_right hgt (y := ix)]
        exact hread
      have hlen' : (pre ++ [ix.remove p]).length + (y :: rest).length = c.index + 1 := by
        simp only [List.length_append, List.length_cons, List.length_nil] at hlen ⊢
        omega
      rw [ih (pre ++ [ix.remove p]) hlen' hread']
      simp

/-! ### Reachable states -/

theorem findFirst_of_sound [DecidableEq K] (ix : Index C K) (cls : List C) (k : K)
    (hs : Sound ix.filed cls ix.data) :
    ix.findFirst cls k ≠ Lookup.outOfRange
      ∧ ∀ r, ix.findFirst cls k = Lookup.found r → r ∈ cls ∧ ix.filed r = k := by
  unfold Index.findFirst
  cases hf : findFrom k ix.data with
  | nil => simp
  | cons e t =>
    obtain ⟨hemem, hek⟩ := findFrom_cons hf
    obtain ⟨r0, hr0, hfr0⟩ := hs e hemem
    simp only [storeAt_of_getElem? hr0]
    refine ⟨by simp, ?_⟩
    intro r hr
    simp only [Lookup.found.injEq] at hr
    subst hr
    exact ⟨List.getElem?_mem hr0, by rw [hfr0, hek]⟩

theorem findFirst_of_complete [DecidableEq K] (ix : Index C K) (cls : List C) (k : K)
    (hs : Sound ix.filed cls ix.data) (hc : Complete ix.filed cls ix.data) :
    (∃ r, ix.findFirst cls k = Lookup.found r) ↔ ∃ r ∈ cls, ix.filed r = k := by
  constructor
  · rintro ⟨r, hr⟩
    exact ⟨r, (findFirst_of_sound ix cls k hs).2 r hr⟩
  · rintro ⟨r, hr, hk⟩
    obtain ⟨q, hq⟩ := List.mem_iff_getElem?.1 hr
    have hmem := hc q r hq
    obtain ⟨e, t, hf⟩ := findFrom_exists (k := k) ⟨(ix.filed r, q), hmem, hk⟩
    obtain ⟨hemem, _⟩ := findFrom_cons hf
    obtain ⟨r0, hr0, _⟩ := hs e hemem
    refine ⟨r0, ?_⟩
    unfold Index.findFirst
    rw [hf]
    exact storeAt_of_getElem? hr0

/-- After any sequence of `addData` calls on indices registered while the store was empty,
every index is sound and every non-unique index is complete. -/
theorem foldl_addData_sound_complete [LinearOrder K] (idxs0 : List (Index C K))
    (h0 : ∀ ix ∈ idxs0, ix.data = []) (rs : List C) :
    ∀ ix ∈ (rs.foldl addData (⟨idxs0, []⟩ : MultiIndex C K)).m_idxs,
      Sound ix.filed rs ix.data ∧ (ix.unique = false → Complete ix.filed rs ix.data) := by
  intro ix hix
  obtain ⟨j, hj⟩ := List.mem_iff_getElem?.1 hix
  have hjlt : j < idxs0.length := by
    have := (List.getElem?_eq_some.1 hj).1
    rw [foldl_addData_idxs_length] at this
    exact this
  have hj0 : (⟨idxs0, []⟩ : MultiIndex C K).m_idxs[j]? = some idxs0[j] := by
    simp [hjlt]
  have hd0 : (idxs0[j]).data = [] := h0 _ (List.getElem_mem _)
  obtain ⟨ix', hix', hP⟩ := foldl_addData_inv
    (fun ix cls => Sound ix.filed cls ix.data
      ∧ (ix.unique = false → Complete ix.filed cls ix.data))
    (fun ix cls r h => by
      refine ⟨sound_setValue _ _ r h.1, ?_⟩
      intro hu
      have hu' : ix.unique = false := hu
      have := complete_setValue ix.ordered r (h.2 hu')
      show Complete ix.filed (cls ++ [r])
        (containerInsert ix.ordered ix.unique (ix.filed r) cls.length ix.data)
      rw [hu']
      exact this)
    rs (⟨idxs0, []⟩ : MultiIndex C K) j idxs0[j] hj0
    (by
      refine ⟨?_, fun _ => ?_⟩
      · rw [hd0]; intro e he; simp at he
      · intro q r hq; simp at hq)
  rw [hj] at hix'
  simp only [Option.some.injEq] at hix'
  subst hix'
  rw [foldl_addData_cls] at hP
  simpa using hP

/-- A removal through an iterator of the index registered last: the iterator is read
before any container it refers to is touched, so the store slot and every index use the
position of the entry the iterator is at. -/
theorem remove_last (m : MultiIndex C K) (i : Iterator) (data : List (K × Nat))
    (e : K × Nat) (hd : iterData m.m_idxs i = some data) (hend : i.is_end data = false)
    (he : i.entry data = some e) (hlt : e.2 < m.m_cls.length)
    (hlast : i.index + 1 = m.m_idxs.length) :
    m.remove i
      = some ⟨m.m_idxs.map (fun ix => ix.remove e.2), m.m_cls.eraseIdx e.2⟩ := by
  have hread : readIdx ([] ++ m.m_idxs) (some i) = some e.2 := by
    simp [readIdx, hd, Iterator.idx, he]
  have hloop := removeIdxs_last i e.2 m.m_idxs [] (by simpa using hlast.symm) hread
  simp only [remove, removeTraced, hd, hend, Iterator.idx, he, Option.map_some', hlt,
    if_true, hloop, List.nil_append, Bool.false_eq_true, if_false]

theorem entry_of_valid (m : MultiIndex C K) (i : Iterator) (hv : m.validIter i = true)
    (hne : (iterData m.m_idxs i).map i.is_end = some false) :
    ∃ data e, iterData m.m_idxs i = some data ∧ i.is_end data = false
      ∧ i.entry data = some e := by
  unfold validIter at hv
  unfold iterData at hne ⊢
  cases hix : m.m_idxs[i.index]? with
  | none => rw [hix] at hv; simp at hv
  | some ix =>
    rw [hix] at hv hne
    simp only [Option.map_some', Option.some.injEq, Bool.and_eq_true, decide_eq_true_eq]
      at hv hne
    have hlen := hv.1
    have hget : ∀ n, n < ix.data.length → ∃ e, ix.data[n]? = some e := by
      intro n hn
      exact ⟨ix.data[n], List.getElem?_eq_getElem hn⟩
    unfold Iterator.is_end at hne
    by_cases hb : i.backward = true
    · rw [if_pos hb] at hne
      simp only [decide_eq_false_iff_not] at hne
      obtain ⟨e, he⟩ := hget (i.it - 1) (by omega)
      refine ⟨ix.data, e, rfl, ?_, ?_⟩
      · simp [Iterator.is_end, hb, hne]
      · simp [Iterator.entry, hb, hne, he]
    · rw [if_neg hb] at hne
      simp only [decide_eq_false_iff_not] at hne
      obtain ⟨e, he⟩ := hget i.it (by omega)
      refine ⟨ix.data, e, rfl, ?_, ?_⟩
      · simp [Iterator.is_end, hb, hne]
      · simp [Iterator.entry, hb, he]

/-- C10, as stated, fails: with one ordered unique index on field 0 registered on the empty
container and the records `(5,1)`, `(5,2)` inserted, removing through `begin()` leaves the
store `[(5,2)]`, which holds a record with key `5`, while the index is empty and
`findFirst(5)` is absent. -/
theorem C10_unique_drop_counterexample :
    (dupKey.remove ⟨0, false, 0⟩).map
        (fun m => (m.m_cls, m.m_idxs.map (fun ix => (ix.data, ix.findFirst m.m_cls 5))))
      = some ([(5, 2)], [([], Lookup.absent)]) := by
  decide

/-- C10, amended. Indices all registered while the store was empty, then any sequence `rs`
of `addData` calls, then `remove` through a non-end iterator of the index registered
last: the call succeeds and erases the store slot `p` the iterator is at; afterwards, for
every registered index and every key `k`, `findFirst(k)` does not fail, a record it
returns is a record of the updated store with key `k`, and for a non-unique index
`findFirst(k)` returns a record if and only if the updated store holds a record with key
`k`. -/
theorem C10_lookup_after_remove [LinearOrder K] (idxs0 : List (Index C K))
    (h0 : ∀ ix ∈ idxs0, ix.data = []) (rs : List C) (i : Iterator)
    (hv : (rs.foldl addData (⟨idxs0, []⟩ : MultiIndex C K)).validIter i = true)
    (hlast : i.index + 1 = idxs0.length)
    (hne : (iterData (rs.foldl addData (⟨idxs0, []⟩ : MultiIndex C K)).m_idxs i).map i.is_end
      = some false) :
    ∃ (m' : MultiIndex C K) (p : Nat),
      (rs.foldl addData (⟨idxs0, []⟩ : MultiIndex C K)).remove i = some m'
      ∧ readIdx (rs.foldl addData (⟨idxs0, []⟩ : MultiIndex C K)).m_idxs (some i) = some p
      ∧ p < rs.length ∧ m'.m_cls = rs.eraseIdx p ∧ m'.m_idxs.length = idxs0.length
      ∧ ∀ ix ∈ m'.m_idxs, ∀ k : K,
          ix.findFirst m'.m_cls k ≠ Lookup.outOfRange
          ∧ (∀ r, ix.findFirst m'.m_cls k = Lookup.found r → r ∈ m'.m_cls ∧ ix.filed r = k)
          ∧ (ix.unique = false →
              ((∃ r, ix.findFirst m'.m_cls k = Lookup.found r)
                ↔ ∃ r ∈ m'.m_cls, ix.filed r = k)) := by
  have hcls : (rs.foldl addData (⟨idxs0, []⟩ : MultiIndex C K)).m_cls = rs := by
    rw [foldl_addData_cls]; rfl
  have hall := foldl_addData_sound_complete idxs0 h0 rs
  obtain ⟨data, e, hd, hend, he⟩ := entry_of_valid _ i hv hne
  have hdata : ∃ ixc ∈ (rs.foldl addData (⟨idxs0, []⟩ : MultiIndex C K)).m_idxs,
      ixc.data = data := by
    unfold iterData at hd
    cases hix : (rs.foldl addData (⟨idxs0, []⟩ : MultiIndex C K)).m_idxs[i.index]? with
    | none => rw [hix] at hd; simp at hd
    | some ixc =>
      rw [hix] at hd
      simp only [Option.map_some', Option.some.injEq] at hd
      exact ⟨ixc, List.getElem?_mem hix, hd⟩
  obtain ⟨ixc, hixc, rfl⟩ := hdata
  have hlt : e.2 < rs.length := sound_lt (hall ixc hixc).1 (entry_mem he)
  have hrem := remove_last _ i ixc.data e hd hend he (by rw [hcls]; exact hlt)
    (by rw [foldl_addData_idxs_length]; exact hlast)
  refine ⟨_, e.2, hrem, ?_, hlt, by rw [hcls], ?_, ?_⟩
  · simp [readIdx, hd, Iterator.idx, he]
  · simp [foldl_addData_idxs_length]
  · intro ix' hix' k
    simp only [List.mem_map] at hix'
    obtain ⟨ix, hix, rfl⟩ := hix'
    obtain ⟨hs, hc⟩ := hall ix hix
    rw [hcls]
    have hs' : Sound (ix.remove e.2).filed (rs.eraseIdx e.2) (ix.remove e.2).data :=
      sound_remove e.2 hs
    refine ⟨(findFirst_of_sound _ _ k hs').1, (findFirst_of_sound _ _ k hs').2, ?_⟩
    intro hu
    have hc' : Complete (ix.remove e.2).filed (rs.eraseIdx e.2) (ix.remove e.2).data :=
      complete_remove e.2 (hc hu)
    exact findFirst_of_complete _ _ k hs' hc'

/-- C10, amended, at an ordered unique index on field 0 and a hashed non-unique index on
field 1, three records, and `begin()` of the index registered last. -/
theorem C10_lookup_after_remove_witness :
    (∀ ix ∈ mixedIdxs, ix.data = [])
    ∧ (mixedRecords.foldl addData (⟨mixedIdxs, []⟩ : MultiIndex (Nat × Nat) Nat)).validIter
        ⟨1, false, 0⟩ = true
    ∧ (⟨1, false, 0⟩ : Iterator).index + 1 = mixedIdxs.length
    ∧ (iterData (mixedRecords.foldl addData
          (⟨mixedIdxs, []⟩ : MultiIndex (Nat × Nat) Nat)).m_idxs ⟨1, false, 0⟩).map
        (Iterator.is_end ⟨1, false, 0⟩) = some false
    ∧ ∃ (m' : MultiIndex (Nat × Nat) Nat) (p : Nat),
      (mixedRecords.foldl addData (⟨mixedIdxs, []⟩ : MultiIndex (Nat × Nat) Nat)).remove
          ⟨1, false, 0⟩ = some m'
      ∧ readIdx (mixedRecords.foldl addData
          (⟨mixedIdxs, []⟩ : MultiIndex (Nat × Nat) Nat)).m_idxs (some ⟨1, false, 0⟩) = some p
      ∧ p < mixedRecords.length ∧ m'.m_cls = mixedRecords.eraseIdx p
      ∧ m'.m_idxs.length = mixedIdxs.length
      ∧ ∀ ix ∈ m'.m_idxs, ∀ k : Nat,
          ix.findFirst m'.m_cls k ≠ Lookup.outOfRange
          ∧ (∀ r, ix.findFirst m'.m_cls k = Lookup.found r → r ∈ m'.m_cls ∧ ix.filed r = k)
          ∧ (ix.unique = false →
              ((∃ r, ix.findFirst m'.m_cls k = Lookup.found r)
                ↔ ∃ r ∈ m'.m_cls, ix.filed r = k)) :=
  ⟨by decide, by decide, by decide, by decide,
    C10_lookup_after_remove mixedIdxs (by decide) mixedRecords ⟨1, false, 0⟩
      (by decide) (by decide) (by decide)⟩

/-! ### The position read by `MultiIndex::remove`

`MultiIndex::remove` evaluates `i->idx()` once for the store and once more for every
index.  When the iterator belongs to an index that is not the last one registered, the
iterator's own container has been changed by the time the later indices are processed. -/

theorem soundB_iff [DecidableEq K] (f : C → K) (cls : List C) (data : List (K × Nat)) :
    soundB f cls data = true ↔ Sound f cls data := by
  simp only [soundB, List.all_eq_true, decide_eq_true_eq, Sound]
  constructor
  · intro h e he
    have := h e he
    cases hr : cls[e.2]? with
    | none => rw [hr] at this; simp at this
    | some r =>
      rw [hr] at this
      exact ⟨r, rfl, by simpa using this⟩
  · intro h e he
    obtain ⟨r, hr, hf⟩ := h e he
    rw [hr]; simp [hf]

theorem completeB_iff [DecidableEq K] (f : C → K) (cls : List C) (data : List (K × Nat)) :
    completeB f cls data = true ↔ Complete f cls data := by
  simp only [completeB, List.all_eq_true, List.mem_range, Complete]
  constructor
  · intro h q r hq
    have := h q (List.getElem?_eq_some.1 hq).1
    rw [hq] at this
    simpa using this
  · intro h q hq
    cases hr : cls[q]? with
    | none => rfl
    | some r => simpa using h q r hr

/-- C2, evaluated at a reachable state that breaks it. Two ordered non-unique indices on
fields 0 and 1 are registered on the empty container, the records `(10,1)` and `(20,2)` are
inserted, and the record `(20,2)` is removed through `rbegin()` of the first index.  The
store is then `[(10,1)]`, but the second index holds the entry `(2, 0)`: its key is not
the key `1` of the record at position 0.  The first index is consistent, the second one
is not. -/
theorem C2_key_position_broken_after_remove :
    (run empty rbeginRemoval).map
        (fun m => (m.m_cls, m.m_idxs.map (fun ix => (ix.data, soundB ix.filed m.m_cls ix.data))))
      = some ([(10, 1)], [([(10, 0)], true), ([(2, 0)], false)]) := by
  decide

/-- C3, evaluated at an input that breaks it. In `threeRecords` every record has its entry
in both indices, and `rbegin()` of the first index is a non-end iterator at position 2.
After `remove` the store is the old one without slot 2, but the second index has lost the
entry of the record `(20,2)`, which is still in the store (now the entry `(1, 1)` of the
removed record points at it): the second index is no longer complete. -/
theorem C3_remaining_record_unreachable :
    threeRecords.m_cls = [(10, 3), (20, 2), (30, 1)]
    ∧ threeRecords.m_idxs.map (fun ix => completeB ix.filed threeRecords.m_cls ix.data)
        = [true, true]
    ∧ (threeRecords.m_idxs[0]?).bind (fun ix => ix.rbegin 0) = some ⟨0, true, 3⟩
    ∧ (iterData threeRecords.m_idxs ⟨0, true, 3⟩).map (Iterator.is_end ⟨0, true, 3⟩)
        = some false
    ∧ (threeRecords.remove ⟨0, true, 3⟩).map
        (fun m => (m.m_cls, m.m_idxs.map
          (fun ix => (ix.data, completeB ix.filed m.m_cls ix.data))))
      = some ([(10, 3), (20, 2)],
          [([(10, 0), (20, 1)], true), ([(1, 1), (3, 0)], false)]) := by
  decide

/-- C4, evaluated at an input that breaks it. The iterator `rbegin()` of the first index of
`threeRecords` holds position 2 when `remove` is called.  The store slot erased is 2 and
the first index is called with 2, but the second index is called with 1: after the first
index erased its last entry, the reverse iterator reads the entry that is now last. -/
theorem C4_remove_passes_two_positions :
    threeRecords.m_idxs.map (fun ix => ix.data)
        = [[(10, 0), (20, 1), (30, 2)], [(1, 2), (2, 1), (3, 0)]]
    ∧ readIdx threeRecords.m_idxs (some ⟨0, true, 3⟩) = some 2
    ∧ (threeRecords.removeTraced ⟨0, true, 3⟩).map (fun r => r.2) = some (some 2, [2, 1])
    ∧ (threeRecords.removeTraced ⟨0, false, 2⟩).map (fun r => r.2) = none := by
  decide

/-! ### `remove` at the end sentinel -/

/-- C11. `remove(i)` with an iterator at the end sentinel (`is_end()` true, forward or
backward) is a no-op: the call is defined, the store and every registered index are
unchanged, no store slot is erased and `Index::remove` is not called. -/
theorem C11_remove_at_end_noop (m : MultiIndex C K) (i : Iterator)
    (hend : (iterData m.m_idxs i).map i.is_end = some true) :
    m.remove i = some m ∧ m.removeTraced i = some (m, none, []) := by
  cases hd : iterData m.m_idxs i with
  | none => rw [hd] at hend; simp at hend
  | some data =>
    rw [hd] at hend
    simp only [Option.map_some', Option.some.injEq] at hend
    have h : m.removeTraced i = some (m, none, []) := by
      simp only [removeTraced, hd, hend, if_true]
    exact ⟨by simp only [remove, h, Option.map_some'], h⟩

/-- C11 at the container `threeRecords` and the end iterator of its first index. -/
theorem C11_remove_at_end_noop_witness :
    (iterData threeRecords.m_idxs ⟨0, false, 3⟩).map (Iterator.is_end ⟨0, false, 3⟩)
        = some true
    ∧ threeRecords.remove ⟨0, false, 3⟩ = some threeRecords
    ∧ threeRecords.removeTraced ⟨0, false, 3⟩ = some (threeRecords, none, []) :=
  ⟨by decide, C11_remove_at_end_noop threeRecords ⟨0, false, 3⟩ (by decide)⟩

/-! ### Not-found results -/

theorem findFrom_eq_drop [DecidableEq K] (k : K) (data : List (K × Nat)) :
    findFrom k data = data.drop (data.findIdx (fun e => decide (e.1 = k))) := by
  induction data with
  | nil => rfl
  | cons e rest ih =>
    unfold findFrom
    by_cases h : e.1 = k
    · simp [h, List.findIdx_cons]
    · simp [h, List.findIdx_cons, ih]

theorem findFrom_head?_eq_find? [DecidableEq K] (k : K) (data : List (K × Nat)) :
    (findFrom k data).head? = data.find? (fun e => decide (e.1 = k)) := by
  induction data with
  | nil => rfl
  | cons e rest ih =>
    unfold findFrom
    by_cases h : e.1 = k
    · simp [h, List.find?_cons]
    · simp [h, List.find?_cons, ih]

theorem findFrom_length_le [DecidableEq K] (k : K) (data : List (K × Nat)) :
    (findFrom k data).length ≤ data.length := by
  rw [findFrom_eq_drop, List.length_drop]
  omega

theorem find_it [DecidableEq K] (ix : Index C K) (j : Nat) (k : K) :
    (ix.find j k).it = ix.data.findIdx (fun e => decide (e.1 = k)) := by
  have hle : ix.data.findIdx (fun e => decide (e.1 = k)) ≤ ix.data.length :=
    List.findIdx_le_length _
  simp only [Index.find, findFrom_eq_drop, List.length_drop]
  omega

theorem find_entry [DecidableEq K] (ix : Index C K) (j : Nat) (k : K) :
    (ix.find j k).entry ix.data = ix.data.find? (fun e => decide (e.1 = k)) := by
  have hit := find_it ix j k
  have hb : (ix.find j k).backward = false := rfl
  simp only [Iterator.entry, hb, hit, Bool.false_eq_true, if_false]
  rw [← findFrom_head?_eq_find?, findFrom_eq_drop, List.head?_drop]

/-- C12. For an index whose entries are consistent with the store and every key `k`:
`findFirst(k)` is absent exactly when the index has no entry with key `k`, otherwise it
returns the store record at the position of the first entry with key `k` in iteration
order, and it never fails with out-of-range; `find(k)` is a forward iterator of this index
inside the container, positioned at the ordinal of the first entry with key `k`; it is at
the end exactly when the index has no entry with key `k`, and otherwise it reads that
first entry and its `key()` is `k`. -/
theorem C12_not_found_results [DecidableEq K] (ix : Index C K) (cls : List C) (j : Nat)
    (k : K) (hs : Sound ix.filed cls ix.data) :
    (ix.findFirst cls k = Lookup.absent ↔ ∀ e ∈ ix.data, e.1 ≠ k)
    ∧ (∀ e, ix.data.find? (fun e => decide (e.1 = k)) = some e →
        ∃ r, cls[e.2]? = some r ∧ ix.findFirst cls k = Lookup.found r)
    ∧ ix.findFirst cls k ≠ Lookup.outOfRange
    ∧ ((ix.find j k).is_end ix.data = true ↔ ∀ e ∈ ix.data, e.1 ≠ k)
    ∧ (∀ e, ix.data.find? (fun e => decide (e.1 = k)) = some e →
        (ix.find j k).entry ix.data = some e ∧ (ix.find j k).key ix.data = some k)
    ∧ (ix.find j k).it = ix.data.findIdx (fun e => decide (e.1 = k))
    ∧ (ix.find j k).index = j ∧ (ix.find j k).backward = false
    ∧ (ix.find j k).it ≤ ix.data.length := by
  have hfound : ∀ e, ix.data.find? (fun e => decide (e.1 = k)) = some e →
      ∃ t, findFrom k ix.data = e :: t := by
    intro e he
    rw [← findFrom_head?_eq_find?] at he
    cases hf : findFrom k ix.data with
    | nil => rw [hf] at he; simp at he
    | cons x t =>
      rw [hf] at he
      simp only [List.head?_cons, Option.some.injEq] at he
      exact ⟨t, by rw [he]⟩
  refine ⟨?_, ?_, (findFirst_of_sound ix cls k hs).1, ?_, ?_, find_it ix j k, rfl, rfl, ?_⟩
  · unfold Index.findFirst
    cases hf : findFrom k ix.data with
    | nil =>
      simp only [true_iff]
      exact findFrom_eq_nil hf
    | cons e t =>
      obtain ⟨hemem, hek⟩ := findFrom_cons hf
      obtain ⟨r0, hr0, _⟩ := hs e hemem
      simp only [storeAt_of_getElem? hr0]
      constructor
      · intro h
        exact absurd h (by simp)
      · intro hall
        exact absurd hek (hall e hemem)
  · intro e he
    obtain ⟨t, hf⟩ := hfound e he
    obtain ⟨hemem, _⟩ := findFrom_cons hf
    obtain ⟨r0, hr0, _⟩ := hs e hemem
    refine ⟨r0, hr0, ?_⟩
    unfold Index.findFirst
    rw [hf]
    exact storeAt_of_getElem? hr0
  · have hb : (ix.find j k).backward = false := rfl
    simp only [Iterator.is_end, hb, Bool.false_eq_true, if_false, decide_eq_true_eq,
      find_it, List.findIdx_eq_length, decide_eq_false_iff_not]
  · intro e he
    have hentry := find_entry ix j k
    rw [he] at hentry
    refine ⟨hentry, ?_⟩
    have hk := List.find?_some he
    simp only [decide_eq_true_eq] at hk
    simp [Iterator.key, hentry, hk]
  · rw [find_it]
    exact List.findIdx_le_length _

/-- C12 at `sampleIndex`, `sampleStore` and the key `20`, which two entries carry. -/
theorem C12_not_found_results_witness :
    Sound sampleIndex.filed sampleStore sampleIndex.data
    ∧ (sampleIndex.findFirst sampleStore 20 = Lookup.absent
        ↔ ∀ e ∈ sampleIndex.data, e.1 ≠ 20)
    ∧ (∀ e, sampleIndex.data.find? (fun e => decide (e.1 = 20)) = some e →
        ∃ r, sampleStore[e.2]? = some r ∧ sampleIndex.findFirst sampleStore 20 = Lookup.found r)
    ∧ sampleIndex.findFirst sampleStore 20 ≠ Lookup.outOfRange
    ∧ ((sampleIndex.find 0 20).is_end sampleIndex.data = true
        ↔ ∀ e ∈ sampleIndex.data, e.1 ≠ 20)
    ∧ (∀ e, sampleIndex.data.find? (fun e => decide (e.1 = 20)) = some e →
        (sampleIndex.find 0 20).entry sampleIndex.data = some e
          ∧ (sampleIndex.find 0 20).key sampleIndex.data = some 20)
    ∧ (sampleIndex.find 0 20).it = sampleIndex.data.findIdx (fun e => decide (e.1 = 20))
    ∧ (sampleIndex.find 0 20).index = 0 ∧ (sampleIndex.find 0 20).backward = false
    ∧ (sampleIndex.find 0 20).it ≤ sampleIndex.data.length :=
  ⟨(soundB_iff _ _ _).1 (by decide),
    C12_not_found_results sampleIndex sampleStore 0 20 ((soundB_iff _ _ _).1 (by decide))⟩

/-! ### `getIndex` -/

theorem getIndexLoop_spec (field : Nat) (idxs : List (Index C K)) :
    ∀ (i : Nat),
      (∀ n, getIndexLoop field i idxs = some n →
        i ≤ n ∧ ∃ ix, idxs[n - i]? = some ix ∧ ix.contensField field = true
          ∧ ∀ (n' : Nat) (ix' : Index C K), n' < n - i → idxs[n']? = some ix' →
              ix'.contensField field = false)
      ∧ (getIndexLoop field i idxs = none ↔ ∀ ix ∈ idxs, ix.contensField field = false) := by
  induction idxs with
  | nil =>
    intro i
    simp [getIndexLoop]
  | cons ix rest ih =>
    intro i
    unfold getIndexLoop
    by_cases h : ix.contensField field = true
    · simp only [h, if_true, Option.some.injEq]
      refine ⟨?_, ?_⟩
      · rintro n rfl
        refine ⟨Nat.le_refl _, ix, by simp, h, ?_⟩
        intro n' ix' hn'
        omega
      · simp [h]
    · have h' : ix.contensField field = false := by simpa using h
      simp only [h', Bool.false_eq_true, if_false]
      obtain ⟨ih1, ih2⟩ := ih (i + 1)
      refine ⟨?_, ?_⟩
      · intro n hn
        obtain ⟨hle, ix0, hix0, hc, hmin⟩ := ih1 n hn
        refine ⟨by omega, ix0, ?_, hc, ?_⟩
        · have : n - i = (n - (i + 1)) + 1 := by omega
          rw [this, List.getElem?_cons_succ]
          exact hix0
        · intro n' ix' hn' hix'
          cases n' with
          | zero =>
            simp only [List.getElem?_cons_zero, Option.some.injEq] at hix'
            rw [← hix']
            exact h'
          | succ n'' =>
            rw [List.getElem?_cons_succ] at hix'
            exact hmin n'' ix' (by omega) hix'
      · rw [ih2]
        simp [h']

/-- The single-field `getIndex`: the result is the earliest registered single-field index
built from the same member pointer, and it is null exactly when there is none; a composite
index is never returned. -/
theorem getIndex_spec (m : MultiIndex C K) (field : Nat) :
    (∀ n, m.getIndex field = some n →
        ∃ ix, m.m_idxs[n]? = some ix ∧ ix.composite = false ∧ ix.fields = [field]
          ∧ ∀ (n' : Nat) (ix' : Index C K), n' < n → m.m_idxs[n']? = some ix' →
              ¬ (ix'.composite = false ∧ ix'.fields = [field]))
    ∧ (m.getIndex field = none
        ↔ ∀ ix ∈ m.m_idxs, ¬ (ix.composite = false ∧ ix.fields = [field])) := by
  have hc : ∀ ix : Index C K, ix.contensField field = true
      ↔ (ix.composite = false ∧ ix.fields = [field]) := by
    intro ix
    unfold Index.contensField
    cases ix.composite <;> simp
  have hc' : ∀ ix : Index C K, ix.contensField field = false
      ↔ ¬ (ix.composite = false ∧ ix.fields = [field]) := by
    intro ix
    rw [← hc]
    simp
  obtain ⟨h1, h2⟩ := getIndexLoop_spec field m.m_idxs 0
  refine ⟨?_, ?_⟩
  · intro n hn
    obtain ⟨_, ix, hix, hcf, hmin⟩ := h1 n hn
    simp only [Nat.sub_zero] at hix hmin
    refine ⟨ix, hix, ((hc ix).1 hcf).1, ((hc ix).1 hcf).2, ?_⟩
    intro n' ix' hn' hix'
    exact (hc' ix').1 (hmin n' ix' hn' hix')
  · unfold getIndex
    rw [h2]
    constructor
    · intro h ix hix
      exact (hc' ix).1 (h ix hix)
    · intro h ix hix
      exact (hc' ix).2 (h ix hix)

theorem getIndexTupleLoop_spec (fields : List Nat) (idxs : List (Index C K))
    (harity : ∀ ix ∈ idxs, ix.composite = true → ix.fields.length = fields.length) :
    ∀ (i : Nat), ∃ r : Option Nat, getIndexTupleLoop fields i idxs = some r
      ∧ (∀ n, r = some n →
          i ≤ n ∧ ∃ ix, idxs[n - i]? = some ix ∧ ix.composite = true ∧ ix.fields = fields
            ∧ ∀ (n' : Nat) (ix' : Index C K), n' < n - i → idxs[n']? = some ix' →
                ¬ (ix'.composite = true ∧ ix'.fields = fields))
      ∧ (r = none ↔ ∀ ix ∈ idxs, ¬ (ix.composite = true ∧ ix.fields = fields)) := by
  induction idxs with
  | nil =>
    intro i
    exact ⟨none, rfl, by simp, by simp⟩
  | cons ix rest ih =>
    intro i
    have hix : ix.contensFieldTuple fields
        = some (decide (ix.composite = true ∧ ix.fields = fields)) := by
      unfold Index.contensFieldTuple
      by_cases hc : ix.composite = true
      · have := harity ix (List.mem_cons_self _ _) hc
        simp [hc, this, eq_comm]
      · simp [hc]
    unfold getIndexTupleLoop
    rw [hix]
    by_cases hm : ix.composite = true ∧ ix.fields = fields
    · refine ⟨some i, by simp [hm], ?_, ?_⟩
      · rintro n hn
        simp only [Option.some.injEq] at hn
        subst hn
        refine ⟨Nat.le_refl _, ix, by simp, hm.1, hm.2, ?_⟩
        intro n' ix' hn'
        omega
      · constructor
        · intro h
          exact absurd h (by simp)
        · intro h
          exact absurd hm (h ix (List.mem_cons_self _ _))
    · obtain ⟨r, hr, h1, h2⟩ := ih (fun x hx => harity x (List.mem_cons_of_mem _ hx)) (i + 1)
      refine ⟨r, by simp [hm, hr], ?_, ?_⟩
      · intro n hn
        obtain ⟨hle, ix0, hix0, hc, hf, hmin⟩ := h1 n hn
        refine ⟨by omega, ix0, ?_, hc, hf, ?_⟩
        · have : n - i = (n - (i + 1)) + 1 := by omega
          rw [this, List.getElem?_cons_succ]
          exact hix0
        · intro n' ix' hn' hix'
          cases n' with
          | zero =>
            simp only [List.getElem?_cons_zero, Option.some.injEq] at hix'
            rw [← hix']
            exact hm
          | succ n'' =>
            rw [List.getElem?_cons_succ] at hix'
            exact hmin n'' ix' (by omega) hix'
      · rw [h2]
        constructor
        · intro h x hx
          rcases List.mem_cons.1 hx with rfl | hx
          · exact hm
          · exact h x hx
        · intro h x hx
          exact h x (List.mem_cons_of_mem _ hx)

/-- The composite `getIndex`, when every registered composite index has as many
extractors as the argument: the call is defined, its result is the earliest registered
composite index built from the same tuple of member pointers, and it is null exactly when
there is none; a single-field index is never returned. -/
theorem getIndexTuple_spec (m : MultiIndex C K) (fields : List Nat)
    (harity : ∀ ix ∈ m.m_idxs, ix.composite = true → ix.fields.length = fields.length) :
    ∃ r : Option Nat, m.getIndexTuple fields = some r
      ∧ (∀ n, r = some n →
          ∃ ix, m.m_idxs[n]? = some ix ∧ ix.composite = true ∧ ix.fields = fields
            ∧ ∀ (n' : Nat) (ix' : Index C K), n' < n → m.m_idxs[n']? = some ix' →
                ¬ (ix'.composite = true ∧ ix'.fields = fields))
      ∧ (r = none ↔ ∀ ix ∈ m.m_idxs, ¬ (ix.composite = true ∧ ix.fields = fields)) := by
  obtain ⟨r, hr, h1, h2⟩ := getIndexTupleLoop_spec fields m.m_idxs harity 0
  refine ⟨r, hr, ?_, h2⟩
  intro n hn
  obtain ⟨_, ix, hix, hc, hf, hmin⟩ := h1 n hn
  simp only [Nat.sub_zero] at hix hmin
  exact ⟨ix, hix, hc, hf, hmin⟩

/-- C13, evaluated at an input that breaks it. The container holds a composite index on
the fields (1, 2) and a single-field index on field 0.  Single-field lookups and the
composite lookup with two fields behave as claimed.  The lookup `getIndex(f0, f1, f2)`
matches no registered index, so the claim says null; the code hands the address of the
three-component argument to `IndexComposite::contensField`, which reads it as its own
two-component tuple: the call has no defined result. -/
theorem C13_getIndex_arity_mismatch :
    arityMix.m_idxs.map (fun ix => (ix.composite, ix.fields))
        = [(true, [1, 2]), (false, [0])]
    ∧ arityMix.getIndex 0 = some 1
    ∧ arityMix.getIndex 1 = none
    ∧ arityMix.getIndexTuple [1, 2] = some (some 0)
    ∧ arityMix.getIndexTuple [2, 1] = some none
    ∧ arityMix.getIndexTuple [0, 1, 2] = none := by
  decide

/-! ### `rbegin` and `reserve` -/

/-- C14. `rbegin()` on a hashed index never returns an iterator, whatever the index holds
(the call ends in `assert(false)`); on an ordered index it always returns a backward
iterator of that index, which reads the last entry of the container and is at the end
exactly when the container is empty. -/
theorem C14_rbegin_hashed_fails (ix : Index C K) (j : Nat) :
    (ix.ordered = false → ix.rbegin j = none)
    ∧ (ix.ordered = true →
        ∃ c : Iterator, ix.rbegin j = some c ∧ c.index = j ∧ c.backward = true
          ∧ c.entry ix.data = ix.data.getLast?
          ∧ (c.is_end ix.data = true ↔ ix.data = [])) := by
  refine ⟨?_, ?_⟩
  · intro h
    simp [Index.rbegin, h]
  · intro h
    refine ⟨⟨j, true, ix.data.length⟩, by simp [Index.rbegin, h], rfl, rfl, ?_, ?_⟩
    · simp only [Iterator.entry, if_true, List.getLast?_eq_getElem?]
      by_cases hl : ix.data.length = 0
      · have hnil : ix.data = [] := List.length_eq_zero.1 hl
        simp [hnil]
      · simp [hl]
    · simp [Iterator.is_end, List.length_eq_zero]

/-- C15. `reserve(n)` is always defined and changes neither the store nor any index: the
records keep their positions, every index keeps its entries, and `findFirst(k)` and the
scan from `find(k)` give the same results for every key as before the call. -/
theorem C15_reserve_frame [LinearOrder K] (m : MultiIndex C K) (n : Nat) :
    step m (Op.reserve n) = some (m.reserve n)
    ∧ (m.reserve n).m_cls = m.m_cls
    ∧ (m.reserve n).m_idxs = m.m_idxs.map (fun ix => ix.reserve n)
    ∧ (∀ j : Nat, ((m.reserve n).m_idxs[j]?).map (fun ix => ix.data)
        = (m.m_idxs[j]?).map (fun ix => ix.data))
    ∧ ∀ (j : Nat) (k : K),
        ((m.reserve n).m_idxs[j]?).map (fun ix => ix.findFirst (m.reserve n).m_cls k)
          = (m.m_idxs[j]?).map (fun ix => ix.findFirst m.m_cls k)
        ∧ ((m.reserve n).m_idxs[j]?).map (fun ix => ix.scan (m.reserve n).m_cls k)
          = (m.m_idxs[j]?).map (fun ix => ix.scan m.m_cls k) := by
  refine ⟨rfl, rfl, ?_, fun _ => rfl, fun _ _ => ⟨rfl, rfl⟩⟩
  simp [reserve, Index.reserve]

/-! ### Ordered traversal -/

theorem length_setTupleValue {V : Type} (c : C) (f : List (C → V)) (v : List V) (I : Nat) :
    (setTupleValue c f v I).length = v.length := by
  induction I with
  | zero =>
    unfold setTupleValue
    split <;> simp
  | succ I ih =>
    unfold setTupleValue
    split
    · rw [List.length_set]; exact ih
    · exact ih

theorem getElem?_setTupleValue {V : Type} (c : C) (f : List (C → V)) (v : List V)
    (hlen : v.length = f.length) (I : Nat) (hI : I < f.length) (n : Nat) :
    (setTupleValue c f v I)[n]? = if n ≤ I then (f[n]?).map (fun g => g c) else v[n]? := by
  induction I generalizing n with
  | zero =>
    unfold setTupleValue
    rw [List.getElem?_eq_getElem hI]
    simp only [List.getElem?_set]
    by_cases hn : 0 = n
    · subst hn
      have hv : 0 < v.length := by omega
      simp [hv, List.getElem?_eq_getElem hI]
    · have : ¬ (n ≤ 0) := by omega
      simp [hn, this]
  | succ I ih =>
    unfold setTupleValue
    rw [List.getElem?_eq_getElem hI]
    simp only [List.getElem?_set, length_setTupleValue]
    by_cases hn : I + 1 = n
    · subst hn
      have hv : I + 1 < v.length := by omega
      simp [hv, List.getElem?_eq_getElem hI]
    · rw [if_neg hn, ih (by omega) n]
      by_cases hle : n ≤ I
      · have : n ≤ I + 1 := by omega
        simp [hle, this]
      · have : ¬ (n ≤ I + 1) := by omega
        simp [hle, this]

/-- The key built by `setTupleValue` is the tuple of the extractor values in declared
order, whatever the default tuple held. -/
theorem compositeKey_eq_map {V : Type} (f : List (C → V)) (tpVal : List V) (cl : C)
    (hne : f ≠ []) (hlen : tpVal.length = f.length) :
    compositeKey f tpVal cl = f.map (fun g => g cl) := by
  have hpos : 0 < f.length := List.length_pos.2 hne
  apply List.ext_getElem?
  intro n
  unfold compositeKey
  rw [getElem?_setTupleValue cl f tpVal hlen (f.length - 1) (by omega) n, List.getElem?_map]
  by_cases hn : n ≤ f.length - 1
  · simp [hn]
  · have h1 : f.length ≤ n := by omega
    have h2 : tpVal.length ≤ n := by omega
    simp [hn, List.getElem?_eq_none h1, List.getElem?_eq_none h2]

theorem tupleLt_iff_lt {V : Type} [LinearOrder V] :
    ∀ (x y : List V), x.length = y.length → (tupleLt x y = true ↔ x < y) := by
  intro x
  induction x with
  | nil =>
    intro y hlen
    cases y with
    | nil => simp [tupleLt]
    | cons b v => simp at hlen
  | cons a u ih =>
    intro y hlen
    cases y with
    | nil => simp at hlen
    | cons b v =>
      have hlen' : u.length = v.length := by simpa using hlen
      unfold tupleLt
      simp only [Bool.or_eq_true, decide_eq_true_eq, Bool.and_eq_true, Bool.not_eq_true',
        decide_eq_false_iff_not, ih v hlen']
      constructor
      · rintro (h | ⟨h1, h2⟩)
        · exact List.Lex.rel h
        · rcases lt_or_eq_of_le (not_lt.1 h1) with h3 | h3
          · exact List.Lex.rel h3
          · subst h3
            exact List.Lex.cons h2
      · intro h
        cases h with
        | cons h' => exact Or.inr ⟨lt_irrefl _, h'⟩
        | rel h' => exact Or.inl h'

theorem tupleLt_three {V : Type} [LinearOrder V] (a1 b1 c1 a2 b2 c2 : V) :
    tupleLt [a1, b1, c1] [a2, b2, c2] = true
      ↔ a1 < a2 ∨ (a1 = a2 ∧ b1 < b2) ∨ (a1 = a2 ∧ b1 = b2 ∧ c1 < c2) := by
  simp only [tupleLt, Bool.or_eq_true, decide_eq_true_eq, Bool.and_eq_true,
    Bool.not_eq_true', decide_eq_false_iff_not, Bool.or_false, Bool.and_false]
  constructor
  · rintro (h | ⟨h1, h | ⟨h2, h3⟩⟩)
    · exact Or.inl h
    · rcases lt_or_eq_of_le (not_lt.1 h1) with h4 | h4
      · exact Or.inl h4
      · exact Or.inr (Or.inl ⟨h4, h⟩)
    · rcases lt_or_eq_of_le (not_lt.1 h1) with h4 | h4
      · exact Or.inl h4
      · rcases lt_or_eq_of_le (not_lt.1 h2) with h5 | h5
        · exact Or.inr (Or.inl ⟨h4, h5⟩)
        · exact Or.inr (Or.inr ⟨h4, h5, h3⟩)
  · rintro (h | ⟨h1, h2⟩ | ⟨h1, h2, h3⟩)
    · exact Or.inl h
    · subst h1
      exact Or.inr ⟨lt_irrefl _, Or.inl h2⟩
    · subst h1
      subst h2
      exact Or.inr ⟨lt_irrefl _, Or.inr ⟨lt_irrefl _, h3⟩⟩

/-- C17. A composite index over the extractors `g, f1, ..., fn`: for every record `r` the
key built by `setValue(idx, r)` is the tuple `(g r, f1 r, ..., fn r)` with the components
in declared order, and `setValue` hands exactly the pair (that key, `idx`) to the
container, which then holds it unless the container is unique and already has the key.
The ordered container places a key before another one exactly when `operator<` of the
tuples says so, and that comparison is lexicographic:
`(a1,b1,c1) < (a2,b2,c2)` iff `a1<a2`, or `a1=a2` and `b1<b2`, or `a1=a2`, `b1=b2` and
`c1<c2`. -/
theorem C17_composite_key_lexicographic {V : Type} [LinearOrder V] (o u : Bool)
    (fields : List Nat) (g : C → V) (f : List (C → V)) (d : V)
    (data : List (List V × Nat)) (idx : Nat) (r : C) :
    (IndexComposite o u fields (g :: f) (List.replicate (f.length + 1) d) data).filed r
        = (g :: f).map (fun h => h r)
    ∧ ((IndexComposite o u fields (g :: f) (List.replicate (f.length + 1) d)
          data).setValue idx r).data
        = containerInsert o u ((g :: f).map (fun h => h r)) idx data
    ∧ (¬ (u = true ∧ ∃ e ∈ data, e.1 = (g :: f).map (fun h => h r)) →
        ((g :: f).map (fun h => h r), idx)
          ∈ ((IndexComposite o u fields (g :: f) (List.replicate (f.length + 1) d)
              data).setValue idx r).data)
    ∧ (∀ (x y : List V) (q : Nat), x.length = y.length →
        orderedInsert x idx [(y, q)]
          = if tupleLt x y = true then [(x, idx), (y, q)] else [(y, q), (x, idx)])
    ∧ ∀ a1 b1 c1 a2 b2 c2 : V,
        tupleLt [a1, b1, c1] [a2, b2, c2] = true
          ↔ a1 < a2 ∨ (a1 = a2 ∧ b1 < b2) ∨ (a1 = a2 ∧ b1 = b2 ∧ c1 < c2) := by
  have hkey : compositeKey (g :: f) (List.replicate (f.length + 1) d) r
      = (g :: f).map (fun h => h r) :=
    compositeKey_eq_map (g :: f) _ r (List.cons_ne_nil _ _) (by simp)
  have hset : ((IndexComposite o u fields (g :: f) (List.replicate (f.length + 1) d)
      data).setValue idx r).data
      = containerInsert o u ((g :: f).map (fun h => h r)) idx data := by
    show containerInsert o u (compositeKey (g :: f) _ r) idx data = _
    rw [hkey]
  refine ⟨hkey, hset, ?_, ?_, tupleLt_three⟩
  · intro hn
    rw [hset]
    apply mem_containerInsert.2
    right
    refine ⟨rfl, ?_⟩
    rintro ⟨hu, hk⟩
    simp only [hasKey, List.any_eq_true, decide_eq_true_eq] at hk
    exact hn ⟨hu, hk⟩
  · intro x y q hlen
    unfold orderedInsert
    by_cases h : tupleLt x y = true
    · have hlt : x < y := (tupleLt_iff_lt x y hlen).1 h
      rw [if_pos h]
      exact if_pos hlt
    · have hlt : ¬ x < y := fun hxy => h ((tupleLt_iff_lt x y hlen).2 hxy)
      rw [if_neg h]
      simp only [orderedInsert]
      exact if_neg hlt

/-! ### Later claims hit by the position read in `MultiIndex::remove` -/

/-- C19, evaluated at a reachable state that breaks it. Both indices are non-unique and
registered on the empty container; three records are inserted, after which both indices
cover the store; then the record at position 1 is removed through the backward iterator
of the first index.  The stored positions of both indices are still 0 and 1, each once,
but the second index was called with position 0 instead of 1: it now maps key 2 to
position 0, where the store holds the record `(10,3)` with key 3. -/
theorem C19_coverage_keys_broken :
    (run empty (nextRemoval.take 5)).map
        (fun m => (m.m_cls, m.m_idxs.map (fun ix => (ix.unique, ix.data))))
      = some ([(10, 3), (20, 2), (30, 1)],
          [(false, [(10, 0), (20, 1), (30, 2)]), (false, [(3, 0), (2, 1), (1, 2)])])
    ∧ (run empty (nextRemoval.take 5)).map
        (fun m => m.m_idxs.map
          (fun ix => (soundB ix.filed m.m_cls ix.data, completeB ix.filed m.m_cls ix.data)))
      = some [(true, true), (true, true)]
    ∧ (run empty nextRemoval).map
        (fun m => (m.m_cls, m.m_idxs.map (fun ix => ix.data)))
      = some ([(10, 3), (30, 1)], [[(10, 0), (30, 1)], [(2, 0), (1, 1)]])
    ∧ (run empty nextRemoval).map
        (fun m => m.m_idxs.map
          (fun ix => (ix.data.map (fun e => e.2), soundB ix.filed m.m_cls ix.data)))
      = some [([0, 1], true), ([0, 1], false)] := by
  decide

/-- C20, evaluated at an input that breaks it. The state `oneRecord` has store size 1.
After `addData((20,2))` the iterator `rbegin()` of the first index is on the entry with
stored position 1.  `remove` through it restores the store and the first index, but the
second index ends with the entry `(2, 0)` instead of `(1, 0)`.  Through the forward
iterator of the first index on the same entry the call has no defined result; through
the iterator of the second index, registered last, the previous state is restored. -/
theorem C20_round_trip_broken :
    (oneRecord.m_cls, oneRecord.m_idxs.map (fun ix => ix.data))
        = ([(10, 1)], [[(10, 0)], [(1, 0)]])
    ∧ (oneRecord.addData (20, 2)).m_idxs.map (fun ix => ix.data)
        = [[(10, 0), (20, 1)], [(1, 0), (2, 1)]]
    ∧ readIdx (oneRecord.addData (20, 2)).m_idxs (some ⟨0, true, 2⟩) = some 1
    ∧ ((oneRecord.addData (20, 2)).remove ⟨0, true, 2⟩).map
        (fun m => (m.m_cls, m.m_idxs.map (fun ix => ix.data)))
      = some ([(10, 1)], [[(10, 0)], [(2, 0)]])
    ∧ ((oneRecord.addData (20, 2)).remove ⟨0, false, 1⟩).map
        (fun m => (m.m_cls, m.m_idxs.map (fun ix => ix.data)))
      = none
    ∧ ((oneRecord.addData (20, 2)).remove ⟨1, false, 1⟩).map
        (fun m => (m.m_cls, m.m_idxs.map (fun ix => ix.data)))
      = some ([(10, 1)], [[(10, 0)], [(1, 0)]]) := by
  decide

end MultiIndex
